import Mathlib

/-
Verification development for the internal-coordinate (Z-matrix) to Cartesian
conversion core of chemcoord (`_zmat_class_core.py`).

The Python source is embedded shallowly over an arbitrary linear ordered
field `K` standing in for IEEE doubles.  The numerical primitives that the
core imports from neighbouring modules (`_jit_isclose`, `_jit_normalize`,
`_jit_cross`, `_jit_get_rotation_matrix`, `constants._jit_absolute_refs`,
`Cartesian._calculate_zmat_values`, `Cartesian._get_positions`) are not part
of the analysed source file; they are modelled from the specification and
gathered in a `NumOps` record so that the whole development stays computable.
Two instantiations are used: exact rationals (for evaluating the model on
concrete molecules) and the real numbers with the genuine `sqrt`, `cos`,
`sin`, `arccos` and `atan2` (for the analytic round-trip properties).
-/

set_option autoImplicit false

namespace ChemCoord

/-- A 3-component coordinate vector, standing in for the `np.ndarray` of
shape `(3,)` used throughout the placement code. -/
structure Vec3 (K : Type) where
  x : K
  y : K
  z : K
deriving DecidableEq, Repr

variable {K : Type} [LinearOrderedField K]

namespace Vec3

def add (u v : Vec3 K) : Vec3 K := ⟨u.x + v.x, u.y + v.y, u.z + v.z⟩

def sub (u v : Vec3 K) : Vec3 K := ⟨u.x - v.x, u.y - v.y, u.z - v.z⟩

def neg (u : Vec3 K) : Vec3 K := ⟨-u.x, -u.y, -u.z⟩

def smul (c : K) (u : Vec3 K) : Vec3 K := ⟨c * u.x, c * u.y, c * u.z⟩

instance : Add (Vec3 K) := ⟨add⟩

instance : Sub (Vec3 K) := ⟨sub⟩

instance : Neg (Vec3 K) := ⟨neg⟩

instance : SMul K (Vec3 K) := ⟨smul⟩

instance : Zero (Vec3 K) := ⟨⟨0, 0, 0⟩⟩

@[simp] theorem add_def (u v : Vec3 K) :
    u + v = ⟨u.x + v.x, u.y + v.y, u.z + v.z⟩ := rfl

@[simp] theorem sub_def (u v : Vec3 K) :
    u - v = ⟨u.x - v.x, u.y - v.y, u.z - v.z⟩ := rfl

@[simp] theorem neg_def (u : Vec3 K) : -u = ⟨-u.x, -u.y, -u.z⟩ := rfl

@[simp] theorem smul_def (c : K) (u : Vec3 K) :
    c • u = ⟨c * u.x, c * u.y, c * u.z⟩ := rfl

@[simp] theorem zero_def : (0 : Vec3 K) = ⟨0, 0, 0⟩ := rfl

@[simp] theorem zero_x : (0 : Vec3 K).x = 0 := rfl

@[simp] theorem zero_y : (0 : Vec3 K).y = 0 := rfl

@[simp] theorem zero_z : (0 : Vec3 K).z = 0 := rfl

/-- Modelled from the spec: the elementwise dot product of 3-vectors
(used by the rotation and normalization helpers that live outside the
analysed source file). -/
def dot (u v : Vec3 K) : K := u.x * v.x + u.y * v.y + u.z * v.z

/-- Modelled from the spec: `_jit_cross`, the 3-dimensional cross product. -/
def cross (u v : Vec3 K) : Vec3 K :=
  ⟨u.y * v.z - u.z * v.y, u.z * v.x - u.x * v.z, u.x * v.y - u.y * v.x⟩

end Vec3

export Vec3 (dot cross)

/-- The numerical primitives consumed by the conversion core but defined in
modules outside the analysed source file.  `sqrt`, `cos`, `sin` feed
normalization and the rotation matrix; `acos` and `atan2` feed the
Cartesian collaborator's re-derivation of internal coordinates; `pi` is the
float approximation of π; `eps` is the shared numerical tolerance required
by the spec for every closeness check. -/
structure NumOps (K : Type) where
  sqrt : K → K
  cos : K → K
  sin : K → K
  acos : K → K
  atan2 : K → K → K
  pi : K
  eps : K

variable (n : NumOps K)

/-- Modelled from the spec: `_jit_isclose`, the scalar closeness check with
the one shared tolerance. -/
def isclose (a b : K) : Bool := decide (|a - b| ≤ n.eps)

/-- Closeness of two vectors: `_jit_isclose(u, v).all()` in the source. -/
def vecIsclose (u v : Vec3 K) : Bool :=
  isclose n u.x v.x && isclose n u.y v.y && isclose n u.z v.z

/-- Modelled from the spec: the Euclidean norm used by `_jit_normalize`. -/
def vnorm (v : Vec3 K) : K := n.sqrt (dot v v)

/-- Modelled from the spec: `_jit_normalize`, division of a vector by its
norm. -/
def normalize (v : Vec3 K) : Vec3 K := (vnorm n v)⁻¹ • v

/-- Modelled from the spec: applying `_jit_get_rotation_matrix(axis, θ)` to a
vector, i.e. the Rodrigues rotation of `v` by angle `θ` about `axis`. -/
def rotApply (axis : Vec3 K) (θ : K) (v : Vec3 K) : Vec3 K :=
  n.cos θ • v + n.sin θ • cross axis v + ((1 - n.cos θ) * dot axis v) • axis

/-- `_jit_calc_single_position`: place one atom from its three reference
positions and its `(bond, angle, dihedral)` row (angles already in radians).
`none` is the `ERR_CODE_InvalidReference` singularity signal. -/
def jitCalcSinglePosition (vb va vd : Vec3 K) (bond angle dihedral : K) :
    Option (Vec3 K) :=
  let BA := va - vb
  if vecIsclose n BA 0 then none
  else
    let ba := normalize n BA
    if isclose n angle n.pi then some (vb + bond • (-ba))
    else if isclose n angle 0 then some (vb + bond • ba)
    else
      let AD := vd - va
      let N1 := cross BA AD
      if vecIsclose n N1 0 then none
      else
        let n1 := normalize n N1
        some (vb + rotApply n ba dihedral (rotApply n n1 angle (bond • ba)))

/-- Modelled from the spec: `constants.keys_below_are_abs_refs` — reference
ids below this threshold are sentinels resolved by the absolute reference
frame instead of pointing at real atoms. -/
def keysBelowAreAbsRefs : Int := 0

/-- Modelled from the spec: `constants._jit_absolute_refs`, the fixed points
of the absolute reference frame (an origin, a unit vector along one axis and
a unit vector defining a reference plane). -/
def jitAbsoluteRefs (j : Int) : Vec3 K :=
  if j = -1 then ⟨0, 0, 0⟩
  else if j = -2 then ⟨1, 0, 0⟩
  else if j = -3 then ⟨0, 1, 0⟩
  else ⟨0, 0, 1⟩

/-- The value an uninitialized entry of the `np.empty` positions array is
modelled by.  The source reads such an entry when a construction table
contains a forward reference; the concrete garbage bytes are arbitrary, and
the development only relies on this value where the result is independent of
it. -/
def uninitPos : Vec3 K := 0

/-- Reference-position lookup performed by the builder loop for one entry of
the construction table: sentinels resolve through the absolute reference
frame, anything else indexes the positions computed so far. -/
def refPos (built : List (Vec3 K)) (j : Int) : Vec3 K :=
  if j < keysBelowAreAbsRefs then jitAbsoluteRefs j
  else built.getD j.toNat uninitPos

/-- The body of the builder loop at one row: resolve the three references
and invoke the placement kernel. -/
def rowKernel (ct : Int × Int × Int) (v : K × K × K) (built : List (Vec3 K)) :
    Option (Vec3 K) :=
  jitCalcSinglePosition n (refPos built ct.1) (refPos built ct.2.1)
    (refPos built ct.2.2) v.1 v.2.1 v.2.2

/-- The builder loop of `_jit_calc_positions`: `acc` is the list of positions
already computed (its length is the current row index).  On the first
singularity it stops, returning `some row` and the partial positions. -/
def jitCalcPositionsGo :
    List ((Int × Int × Int) × (K × K × K)) → List (Vec3 K) →
      Option Nat × List (Vec3 K)
  | [], acc => (none, acc)
  | (ct, v) :: rest, acc =>
    match rowKernel n ct v acc with
    | none => (some acc.length, acc)
    | some p => jitCalcPositionsGo rest (acc ++ [p])

/-- `_jit_calc_positions`: run the placement kernel over all rows in table
order.  The first component is `some row` iff a singularity was signalled at
`row` (`ERR_CODE_InvalidReference`), in which case the second component
holds exactly the positions of the rows before `row`. -/
def jitCalcPositions (cTable : List (Int × Int × Int))
    (zmatValues : List (K × K × K)) : Option Nat × List (Vec3 K) :=
  jitCalcPositionsGo n (cTable.zip zmatValues) []

/-- The `atom` column: either the dummy marker `'X'` or a real element
symbol (abstracted to a numeric tag). -/
inductive AtomSym
  | X
  | elem (tag : Nat)
deriving DecidableEq, Repr

/-- One row of a Z-matrix frame: the atom id (the pandas index label), the
element symbol and the columns `['b', 'bond', 'a', 'angle', 'd', 'dihedral']`.
Angles are stored in degrees, as in the source. -/
structure ZRow (K : Type) where
  id : Int
  atom : AtomSym
  b : Int
  a : Int
  d : Int
  bond : K
  angle : K
  dihedral : K
deriving DecidableEq, Repr

/-- A placeholder row used for out-of-range `getD` lookups (the source would
raise a `KeyError` instead; no claim depends on this value). -/
def zrow0 : ZRow K := ⟨0, .X, 0, 0, 0, 0, 0, 0⟩

/-- One row of a Cartesian frame: atom id, element symbol, position. -/
structure CartRow (K : Type) where
  id : Int
  atom : AtomSym
  pos : Vec3 K
deriving DecidableEq, Repr

/-- The Cartesian collaborator's data: an ordered frame of atom rows. -/
structure Cartesian (K : Type) where
  rows : List (CartRow K)
deriving DecidableEq, Repr

/-- One entry of the `has_dummies` bookkeeping map:
`has_dummies[i] = {'dummy_d': dummyD, 'actual_d': actualD}`. -/
structure DummyEntry where
  i : Int
  dummyD : Int
  actualD : Int
deriving DecidableEq, Repr

/-- The ZmatCore state: the frame plus the `_metadata` entries the
conversion core reads and writes (`has_dummies` and
`last_valid_cartesian`). -/
structure Zmat (K : Type) where
  rows : List (ZRow K)
  hasDummies : List DummyEntry
  lastValidCartesian : Cartesian K
deriving DecidableEq, Repr

/-- The payload of the `InvalidReference` exception raised by
`get_cartesian`: the failing atom's original id, its `b`, `a`, `d`
reference ids and the partial Cartesian built so far. -/
structure InvalidRef (K : Type) where
  i : Int
  b : Int
  a : Int
  d : Int
  alreadyBuiltCartesian : Cartesian K
deriving DecidableEq, Repr

def Zmat.ids (z : Zmat K) : List Int := z.rows.map (·.id)

/-- Row lookup by atom id (`zmat.loc[i]`); rows earlier in the frame win,
as for a unique pandas index. -/
def Zmat.rowOf (z : Zmat K) (i : Int) : ZRow K :=
  (z.rows.find? fun r => decide (r.id = i)).getD zrow0

/-- `max(self.index)` (the frame is nonempty whenever the source evaluates
this, and ids are nonnegative, so the `0` seed is inert). -/
def Zmat.maxId (z : Zmat K) : Int := z.rows.foldl (fun m r => max m r.id) 0

/-- Position of the first occurrence of `v` in `ids` (`index.get_loc`). -/
def findPos : List Int → Int → Option Nat
  | [], _ => none
  | i :: rest, v => if i = v then some 0 else (findPos rest v).map (· + 1)

/-- `pandas.replace(old_index, new_index)` on one reference entry: an id
that is an index label becomes its positional index, anything else (the
sentinel keys) passes through unchanged. -/
def replaceRef (ids : List Int) (v : Int) : Int :=
  match findPos ids v with
  | some k => (k : Int)
  | none => v

/-- The construction table produced by `change_numbering()` inside
`get_cartesian`: every `b`/`a`/`d` entry is relabelled to its row position,
except the upper-triangular cells of the first three rows
(`b,a,d` of row 0, `a,d` of row 1, `d` of row 2), which are kept intact. -/
def ctableAfter (z : Zmat K) : List (Int × Int × Int) :=
  let ids := z.ids
  z.rows.enum.map fun kr =>
    ( if kr.1 = 0 then kr.2.b else replaceRef ids kr.2.b,
      if kr.1 ≤ 1 then kr.2.a else replaceRef ids kr.2.a,
      if kr.1 ≤ 2 then kr.2.d else replaceRef ids kr.2.d )

/-- Degrees to radians, with the model's float π. -/
def radians (x : K) : K := x * n.pi / 180

/-- Radians to degrees, with the model's float π. -/
def degrees (x : K) : K := x * 180 / n.pi

/-- The value rows handed to the builder: `bond` unchanged, `angle` and
`dihedral` converted to radians. -/
def valuesOf (z : Zmat K) : List (K × K × K) :=
  z.rows.map fun r => (r.bond, radians n r.angle, radians n r.dihedral)

/-- `create_cartesian(positions, row)` inside `get_cartesian`: the Cartesian
frame indexed by `self.index[:row]` carrying `positions[:row]`. -/
def createCartesian (z : Zmat K) (positions : List (Vec3 K)) (row : Nat) :
    Cartesian K :=
  ⟨((z.rows.take row).zip (positions.take row)).map fun rp =>
    ⟨rp.1.id, rp.1.atom, rp.2⟩⟩

/-- `get_cartesian`: renumber, convert angles to radians, run the builder;
on success return the full Cartesian, on `ERR_CODE_InvalidReference` raise
`InvalidReference` with the failing atom's original id, its `b`, `a`, `d`
from the original frame and the partial Cartesian of the atoms placed so
far. -/
def getCartesian (z : Zmat K) : Except (InvalidRef K) (Cartesian K) :=
  match jitCalcPositions n (ctableAfter z) (valuesOf n z) with
  | (some row, positions) =>
    let r := z.rows.getD row zrow0
    .error ⟨r.id, r.b, r.a, r.d, createCartesian z positions row⟩
  | (none, positions) => .ok (createCartesian z positions z.rows.length)

/-- Position lookup in a Cartesian frame by atom id. -/
def Cartesian.posOf (c : Cartesian K) (i : Int) : Vec3 K :=
  match c.rows.find? fun r => decide (r.id = i) with
  | some r => r.pos
  | none => 0

/-- Modelled from the spec: `Cartesian._get_positions`, which resolves both
real atom ids and sentinel keys (the latter through the absolute reference
frame). -/
def resolvePos (c : Cartesian K) (j : Int) : Vec3 K :=
  if j < keysBelowAreAbsRefs then jitAbsoluteRefs j else c.posOf j

/-- Modelled from the spec: `Cartesian._calculate_zmat_values` for one
construction row `(atom, b, a, d)` — derive `(bond, angle, dihedral)` from
already-known Cartesian positions: `bond` is the distance to the bond
reference, `angle` the angle at the bond reference between the placed atom
and the angle reference (in degrees), `dihedral` the torsion angle about
the bond between the bond and angle references, measured from the dihedral
reference (in degrees, atan2 convention). -/
def calculateZmatValues (c : Cartesian K) (row : Int × Int × Int × Int) :
    K × K × K :=
  let p := resolvePos c row.1
  let vb := resolvePos c row.2.1
  let va := resolvePos c row.2.2.1
  let vd := resolvePos c row.2.2.2
  let D := p - vb
  let BA := va - vb
  let AD := vd - va
  let bond := n.sqrt (dot D D)
  let angle := n.acos (dot D BA / (bond * n.sqrt (dot BA BA)))
  let u := normalize n BA
  let dihedral := n.atan2 (dot u (cross AD D)) (dot AD D - dot AD u * dot D u)
  (bond, degrees n angle, degrees n dihedral)

/-- `get_normal_vec` inside `_insert_dummy_cart`: the normalized plane
normal `n1 = (a_pos - b_pos) × (d_pos - a_pos)` read off a Cartesian. -/
def getNormalVec (c : Cartesian K) (bl al dl : Int) : Vec3 K :=
  let bPos := resolvePos c bl
  let aPos := resolvePos c al
  let dPos := resolvePos c dl
  normalize n (cross (aPos - bPos) (dPos - aPos))

/-- `_insert_dummy_cart`: compute the plane normal from the last valid
Cartesian and the failing atom's `(b, a, d)` row, then append a dummy atom
`'X'` to the partial Cartesian of the exception, positioned at the `a`
reference offset by the unit vector `normalize(n1 × BA)`; its id is
`max(self.index) + 1`. -/
def insertDummyCart (z : Zmat K) (e : InvalidRef K) : Cartesian K × Int :=
  let r := z.rowOf e.i
  let n1 := getNormalVec n z.lastValidCartesian r.b r.a r.d
  let c := e.alreadyBuiltCartesian
  let bPos := resolvePos c r.b
  let aPos := resolvePos c r.a
  let BA := aPos - bPos
  let n2 := normalize n (cross n1 BA)
  let iDummy := z.maxId + 1
  (⟨c.rows ++ [⟨iDummy, .X, aPos + n2⟩]⟩, iDummy)

/-- `insert_row(df, pos, key)`: splice a new row in just before position
`pos` (appending when `pos = len`). -/
def insertRowAt (rows : List (ZRow K)) (pos : Nat) (row : ZRow K) :
    List (ZRow K) :=
  rows.take pos ++ [row] ++ rows.drop pos

/-- Overwrite the `d` reference of the row labelled `i`. -/
def setD (rows : List (ZRow K)) (i newD : Int) : List (ZRow K) :=
  rows.map fun r => if r.id = i then { r with d := newD } else r

/-- The advisory notices the recovery protocol emits through
`warnings.warn`. -/
inductive Notice
  | dummyInserted (i dummyD : Int)
  | dummiesRemoved (ks : List Int)
deriving DecidableEq, Repr

def Zmat.lookupDummy (z : Zmat K) (i : Int) : Option DummyEntry :=
  z.hasDummies.find? fun e => decide (e.i = i)

/-- The `insert_dummy` transition inside `_insert_dummy_zmat`: record the
failing atom's current `d` as `actual_d`, splice a dummy row labelled
`dummyD` in just before atom `i`, give it atom symbol `'X'`, copy its
`(b, a, d)` from the row of `actual_d`, seed its values by asking the
Cartesian collaborator, rewrite atom `i`'s `d` to the dummy id, record the
`has_dummies` entry and emit an insertion notice. -/
def insertDummyOp (z : Zmat K) (i : Int) (dummyCart : Cartesian K)
    (dummyD : Int) : Zmat K × Notice :=
  let actualD := (z.rowOf i).d
  let srcRow := z.rowOf actualD
  let vals := calculateZmatValues n dummyCart (dummyD, srcRow.b, srcRow.a, srcRow.d)
  let newRow : ZRow K :=
    ⟨dummyD, .X, srcRow.b, srcRow.a, srcRow.d, vals.1, vals.2.1, vals.2.2⟩
  let pos := (findPos z.ids i).getD 0
  let rows := setD (insertRowAt z.rows pos newRow) i dummyD
  ({ z with
      rows := rows
      hasDummies :=
        (z.hasDummies.filter fun e => decide (e.i ≠ i)) ++ [⟨i, dummyD, actualD⟩] },
   .dummyInserted i dummyD)

/-- The removability test of `_has_removable_dummies` for one entry: against
the converted Cartesian, the cross product `BA × AD` taken with the atom's
original (`actual_d`) reference is no longer numerically zero. -/
def removablePred (z : Zmat K) (xyz : Cartesian K) (e : DummyEntry) : Bool :=
  let r := z.rowOf e.i
  let BA := resolvePos xyz r.a - resolvePos xyz r.b
  let AD := resolvePos xyz e.actualD - resolvePos xyz r.a
  !(vecIsclose n (cross BA AD) 0)

/-- `_has_removable_dummies`: filter the `has_dummies` entries by the
removability test.  The internal `get_cartesian` may itself signal a
singularity, which propagates. -/
def hasRemovableDummies (z : Zmat K) :
    Except (InvalidRef K) (List DummyEntry) :=
  match getCartesian n z with
  | .error e => .error e
  | .ok xyz => .ok (z.hasDummies.filter (removablePred n z xyz))

/-- The `has_dummies` entry recorded for atom `k` (the source raises
`KeyError` when it is absent; the default is inert for every claim). -/
def dummyEntryOf (z : Zmat K) (k : Int) : DummyEntry :=
  (z.lookupDummy k).getD ⟨k, k, k⟩

/-- Step 1 of `_remove_dummies`: restore each listed atom's `d` to its
recorded `actual_d`. -/
def removeRestoreRows (z : Zmat K) (toRemove : List Int) : List (ZRow K) :=
  toRemove.foldl (fun rs k => setD rs k (dummyEntryOf z k).actualD) z.rows

/-- Step 2 of `_remove_dummies`: recompute the `(bond, angle, dihedral)` of
each listed atom from the converted positions, against the restored
construction row. -/
def removeRecomputeRows (cart : Cartesian K) (toRemove : List Int)
    (rows : List (ZRow K)) : List (ZRow K) :=
  rows.map fun r =>
    if toRemove.contains r.id then
      let vals := calculateZmatValues n cart (r.id, r.b, r.a, r.d)
      { r with bond := vals.1, angle := vals.2.1, dihedral := vals.2.2 }
    else r

/-- The dummy-row ids that step 3 of `_remove_dummies` drops. -/
def removeDummyIds (z : Zmat K) (toRemove : List Int) : List Int :=
  toRemove.map fun k => (dummyEntryOf z k).dummyD

/-- The shared body of `_remove_dummies` once the removal list is fixed:
if it is empty, nothing changes and no notice is emitted; otherwise restore
each atom's `d` to its recorded `actual_d`, convert (which may raise,
uncaught), recompute the affected `(bond, angle, dihedral)` rows from the
final positions, drop the dummy rows, clear the `has_dummies` entries and
emit a removal notice. -/
def removeDummiesCore (z : Zmat K) (toRemove : List Int) :
    Except (InvalidRef K) (Zmat K × List Notice) :=
  if toRemove.isEmpty then .ok (z, [])
  else
    match getCartesian n { z with rows := removeRestoreRows z toRemove } with
    | .error e => .error e
    | .ok cart =>
      .ok ({ z with
              rows := (removeRecomputeRows n cart toRemove
                  (removeRestoreRows z toRemove)).filter
                fun r => decide (r.id ∉ removeDummyIds z toRemove)
              hasDummies := z.hasDummies.filter fun e => decide (e.i ∉ toRemove) },
           [.dummiesRemoved toRemove])

/-- `_remove_dummies`: with an explicit list, remove exactly those entries;
with `none`, remove whatever `_has_removable_dummies` reports. -/
def removeDummies (z : Zmat K) (toRemove : Option (List Int)) :
    Except (InvalidRef K) (Zmat K × List Notice) :=
  match toRemove with
  | some ks => removeDummiesCore n z ks
  | none =>
    match hasRemovableDummies n z with
    | .error e => .error e
    | .ok removable => removeDummiesCore n z (removable.map (·.i))

/-- The outcome of one recovery run. -/
inductive RecoveryResult (K : Type)
  /-- Recovery reached a state whose conversion succeeds. -/
  | done (z : Zmat K) (notices : List Notice)
  /-- An `InvalidReference` escaped the recovery machinery (the source has
  no handler around the toggle-removal path). -/
  | failed (e : InvalidRef K)
  /-- The modelling fuel ran out; the source would still be recursing. -/
  | fuelOut
deriving DecidableEq

/-- The toggle at the head of `_insert_dummy_zmat` (lines 504–508): an
atom id already present in `has_dummies` triggers a removal of its dummy;
any other id triggers a fresh insertion. -/
def toggleStep (z : Zmat K) (e : InvalidRef K) :
    Except (InvalidRef K) (Zmat K × List Notice) :=
  if (z.lookupDummy e.i).isSome then removeDummiesCore n z [e.i]
  else
    let ic := insertDummyCart n z e
    let zi := insertDummyOp n z e.i ic.1 ic.2
    .ok (zi.1, [zi.2])

/-- `_insert_dummy_zmat`: perform the toggle (whose internal conversion may
raise, uncaught), then retry the full conversion, recursing on any further
singularity.  The recursion of the source is modelled with explicit fuel. -/
def insertDummyZmat : Nat → Zmat K → InvalidRef K → RecoveryResult K
  | 0, _, _ => .fuelOut
  | fuel + 1, z, e =>
    match toggleStep n z e with
    | .error eNew => .failed eNew
    | .ok (z₁, ns) =>
      match getCartesian n z₁ with
      | .ok c => .done { z₁ with lastValidCartesian := c } ns
      | .error eNext =>
        match insertDummyZmat fuel z₁ eNext with
        | .done z₂ ns₂ => .done z₂ (ns ++ ns₂)
        | r => r

/-! ### The two instantiations of the numerical primitives -/

/-- The IEEE double value of `np.pi`, as an exact rational
(`884279719003555 / 2^48`). -/
def npPi : ℚ := 884279719003555 / 281474976710656

/-- The shared numerical tolerance (numpy's default absolute tolerance). -/
def ratEps : ℚ := 1 / 100000000

/-- Fuel-driven integer Newton iteration for the floor square root; the
iteration stops as soon as it makes no progress, so the fuel bound is never
reached for the magnitudes evaluated here. -/
def isqrtGo (x : Nat) : Nat → Nat → Nat
  | 0, g => g
  | f + 1, g =>
    let g' := (g + x / g) / 2
    if g' < g then isqrtGo x f g' else g

/-- Floor square root on naturals (structurally recursive, so concrete
values reduce). -/
def isqrt (x : Nat) : Nat := if x ≤ 1 then x else isqrtGo x 128 x

/-- A computable rational square root: exact on ratios of perfect squares,
which covers every concrete geometry evaluated in this development. -/
def ratSqrt (q : ℚ) : ℚ := (isqrt q.num.toNat : ℚ) / (isqrt q.den : ℚ)

/-- A rational stand-in for cosine.  Concrete evaluations of the model are
arranged so that no result ever depends on its accuracy (the analytic
claims are settled over `ℝ` with the exact functions). -/
def ratCos (q : ℚ) : ℚ := 1 - q ^ 2 / 2

/-- A rational stand-in for sine; see `ratCos`. -/
def ratSin (q : ℚ) : ℚ := q - q ^ 3 / 6

/-- A rational stand-in for arccos; see `ratCos`. -/
def ratAcos (q : ℚ) : ℚ := npPi / 2 - q

/-- A rational stand-in for atan2; see `ratCos`. -/
def ratAtan2 (y x : ℚ) : ℚ := y * x

/-- The executable rational instantiation of the numerical primitives. -/
def ratOps : NumOps ℚ :=
  ⟨ratSqrt, ratCos, ratSin, ratAcos, ratAtan2, npPi, ratEps⟩

/-- atan2 over the reals: the argument of the complex number `x + y·i`,
valued in `(-π, π]` (with `atan2 0 0 = 0`). -/
noncomputable def realAtan2 (y x : ℝ) : ℝ := Complex.arg ⟨x, y⟩

/-- The tolerance over the reals. -/
noncomputable def realEps : ℝ := 1 / 100000000

/-- The exact real instantiation of the numerical primitives, idealizing
the IEEE doubles of the source. -/
noncomputable def realOps : NumOps ℝ :=
  ⟨Real.sqrt, Real.cos, Real.sin, Real.arccos, realAtan2, Real.pi, realEps⟩

/-! ### Evaluation lemmas for the closeness checks and the kernel -/

@[simp] theorem isclose_true_iff {a b : K} :
    isclose n a b = true ↔ |a - b| ≤ n.eps := by
  simp [isclose]

@[simp] theorem isclose_false_iff {a b : K} :
    isclose n a b = false ↔ ¬ |a - b| ≤ n.eps := by
  simp [isclose]

@[simp] theorem vecIsclose_true_iff {u v : Vec3 K} :
    vecIsclose n u v = true ↔
      |u.x - v.x| ≤ n.eps ∧ |u.y - v.y| ≤ n.eps ∧ |u.z - v.z| ≤ n.eps := by
  simp [vecIsclose, and_assoc]

@[simp] theorem vecIsclose_false_iff {u v : Vec3 K} :
    vecIsclose n u v = false ↔
      ¬ (|u.x - v.x| ≤ n.eps ∧ |u.y - v.y| ≤ n.eps ∧ |u.z - v.z| ≤ n.eps) := by
  rw [← vecIsclose_true_iff n]
  cases vecIsclose n u v <;> simp

/-- Branch: degenerate bond reference. -/
theorem singlePos_BA_zero {vb va : Vec3 K} (vd : Vec3 K) (bond angle dihedral : K)
    (h : vecIsclose n (va - vb) 0 = true) :
    jitCalcSinglePosition n vb va vd bond angle dihedral = none := by
  simp only [jitCalcSinglePosition, h, if_true]

/-- Branch: angle numerically equal to π. -/
theorem singlePos_pi {vb va : Vec3 K} (vd : Vec3 K) {bond angle : K} (dihedral : K)
    (h : vecIsclose n (va - vb) 0 = false)
    (hpi : isclose n angle n.pi = true) :
    jitCalcSinglePosition n vb va vd bond angle dihedral =
      some (vb + bond • (-normalize n (va - vb))) := by
  simp only [jitCalcSinglePosition, h, hpi, Bool.false_eq_true, if_false, if_true]

/-- Branch: angle numerically equal to 0. -/
theorem singlePos_zero {vb va : Vec3 K} (vd : Vec3 K) {bond angle : K} (dihedral : K)
    (h : vecIsclose n (va - vb) 0 = false)
    (hpi : isclose n angle n.pi = false)
    (h0 : isclose n angle 0 = true) :
    jitCalcSinglePosition n vb va vd bond angle dihedral =
      some (vb + bond • normalize n (va - vb)) := by
  simp only [jitCalcSinglePosition, h, hpi, h0, Bool.false_eq_true, if_false, if_true]

/-- Branch: collinear angle-defining triple. -/
theorem singlePos_N1_zero {vb va vd : Vec3 K} (bond angle dihedral : K)
    (h : vecIsclose n (va - vb) 0 = false)
    (hpi : isclose n angle n.pi = false)
    (h0 : isclose n angle 0 = false)
    (hN1 : vecIsclose n (cross (va - vb) (vd - va)) 0 = true) :
    jitCalcSinglePosition n vb va vd bond angle dihedral = none := by
  simp only [jitCalcSinglePosition, h, hpi, h0, hN1, Bool.false_eq_true, if_false, if_true]

/-- Branch: the general two-rotation placement. -/
theorem singlePos_general {vb va vd : Vec3 K} {bond angle dihedral : K}
    (h : vecIsclose n (va - vb) 0 = false)
    (hpi : isclose n angle n.pi = false)
    (h0 : isclose n angle 0 = false)
    (hN1 : vecIsclose n (cross (va - vb) (vd - va)) 0 = false) :
    jitCalcSinglePosition n vb va vd bond angle dihedral =
      some (vb + rotApply n (normalize n (va - vb)) dihedral
        (rotApply n (normalize n (cross (va - vb) (vd - va))) angle
          (bond • normalize n (va - vb)))) := by
  simp only [jitCalcSinglePosition, h, hpi, h0, hN1, Bool.false_eq_true, if_false, if_true]

/-! ### Builder loop: step and characterization lemmas -/

@[simp] theorem go_nil (acc : List (Vec3 K)) :
    jitCalcPositionsGo n [] acc = (none, acc) := rfl

theorem go_cons_ok {ct : Int × Int × Int} {v : K × K × K}
    {acc : List (Vec3 K)} {p : Vec3 K}
    (rest : List ((Int × Int × Int) × (K × K × K)))
    (h : rowKernel n ct v acc = some p) :
    jitCalcPositionsGo n ((ct, v) :: rest) acc =
      jitCalcPositionsGo n rest (acc ++ [p]) := by
  simp only [jitCalcPositionsGo, h]

theorem go_cons_err {ct : Int × Int × Int} {v : K × K × K}
    {acc : List (Vec3 K)}
    (rest : List ((Int × Int × Int) × (K × K × K)))
    (h : rowKernel n ct v acc = none) :
    jitCalcPositionsGo n ((ct, v) :: rest) acc = (some acc.length, acc) := by
  simp only [jitCalcPositionsGo, h]

/-- Placeholder row for list lookups in the builder characterization. -/
def trow0 : (Int × Int × Int) × (K × K × K) := ((0, 0, 0), (0, 0, 0))

/-- Splitting a `take` equation one step further: if the first `m + 1`
positions are `acc ++ [p]` with `m = acc.length`, then the first `m` are
`acc` and the element at `m` is `p`. -/
theorem take_succ_split {α : Type} {ps acc : List α} {p d : α}
    (h : ps.take (acc.length + 1) = acc ++ [p]) :
    ps.take acc.length = acc ∧ ps.getD acc.length d = p := by
  have hlen : acc.length + 1 ≤ ps.length := by
    have := congrArg List.length h
    simp only [List.length_take, List.length_append, List.length_singleton] at this
    omega
  constructor
  · have h2 : ps.take acc.length = (ps.take (acc.length + 1)).take acc.length := by
      rw [List.take_take]
      congr 1
      omega
    rw [h2, h, List.take_append_of_le_length (le_refl _), List.take_length]
  · have h2 : (ps.take (acc.length + 1)).getD acc.length d = p := by
      rw [h, List.getD_append_right _ _ _ _ (le_refl _)]
      simp
    rw [List.getD_eq_getElem _ _ (by simpa using by omega)] at h2
    rw [List.getD_eq_getElem _ _ (by omega)]
    rwa [List.getElem_take] at h2

/-- Characterization of a successful builder run: every row's position is
produced by the row kernel applied to the positions of the earlier rows. -/
theorem go_ok_spec (rows : List ((Int × Int × Int) × (K × K × K)))
    (acc ps : List (Vec3 K))
    (h : jitCalcPositionsGo n rows acc = (none, ps)) :
    ps.length = acc.length + rows.length ∧
    ps.take acc.length = acc ∧
    ∀ k, k < rows.length →
      rowKernel n (rows.getD k trow0).1 (rows.getD k trow0).2
          (ps.take (acc.length + k)) =
        some (ps.getD (acc.length + k) 0) := by
  induction rows generalizing acc with
  | nil =>
    have h2 : acc = ps := by simpa using congrArg Prod.snd h
    subst h2
    simp
  | cons hd tl ih =>
    rcases hkr : rowKernel n hd.1 hd.2 acc with _ | p
    · rw [show hd = (hd.1, hd.2) from rfl, go_cons_err n tl hkr] at h
      exact absurd (congrArg Prod.fst h) (by simp)
    · rw [show hd = (hd.1, hd.2) from rfl, go_cons_ok n tl hkr] at h
      obtain ⟨hlen, htake, hrows⟩ := ih (acc ++ [p]) h
      simp only [List.length_append, List.length_singleton] at hlen htake hrows
      obtain ⟨hacc, hgd⟩ := take_succ_split (d := (0 : Vec3 K)) htake
      refine ⟨by simp only [List.length_cons]; omega, hacc, ?_⟩
      intro k hk
      match k with
      | 0 =>
        simp only [Nat.add_zero, List.getD_cons_zero]
        rw [hacc, hgd]
        exact hkr
      | k + 1 =>
        have := hrows k (by simpa using hk)
        simpa [Nat.add_comm, Nat.add_assoc, Nat.add_left_comm] using this

/-- Characterization of a failed builder run: the reported row is the first
singular one — every earlier row succeeded, and the partial positions are
exactly those of the earlier rows. -/
theorem go_err_spec (rows : List ((Int × Int × Int) × (K × K × K)))
    (acc ps : List (Vec3 K)) (r : Nat)
    (h : jitCalcPositionsGo n rows acc = (some r, ps)) :
    acc.length ≤ r ∧ r = ps.length ∧ r - acc.length < rows.length ∧
    ps.take acc.length = acc ∧
    (∀ k, k < r - acc.length →
      rowKernel n (rows.getD k trow0).1 (rows.getD k trow0).2
          (ps.take (acc.length + k)) =
        some (ps.getD (acc.length + k) 0)) ∧
    rowKernel n (rows.getD (r - acc.length) trow0).1
      (rows.getD (r - acc.length) trow0).2 ps = none := by
  induction rows generalizing acc with
  | nil => exact absurd (congrArg Prod.fst h) (by simp)
  | cons hd tl ih =>
    rcases hkr : rowKernel n hd.1 hd.2 acc with _ | p
    · rw [show hd = (hd.1, hd.2) from rfl, go_cons_err n tl hkr] at h
      have hr : acc.length = r := by simpa using congrArg Prod.fst h
      have hps : acc = ps := by simpa using congrArg Prod.snd h
      subst hr
      subst hps
      refine ⟨le_refl _, rfl, by simp, by simp, ?_, ?_⟩
      · intro k hk
        omega
      · simpa using hkr
    · rw [show hd = (hd.1, hd.2) from rfl, go_cons_ok n tl hkr] at h
      obtain ⟨hle, hrlen, hlt, htake, hrows, hfail⟩ := ih (acc ++ [p]) h
      simp only [List.length_append, List.length_singleton] at hle hlt htake hrows hfail
      obtain ⟨hacc, hgd⟩ := take_succ_split (d := (0 : Vec3 K)) htake
      refine ⟨by omega, hrlen, by simp only [List.length_cons]; omega, hacc, ?_, ?_⟩
      · intro k hk
        match k with
        | 0 =>
          simp only [Nat.add_zero, List.getD_cons_zero]
          rw [hacc, hgd]
          exact hkr
        | k + 1 =>
          have := hrows k (by omega)
          simpa [Nat.add_comm, Nat.add_assoc, Nat.add_left_comm] using this
      · have hidx : r - acc.length = (r - (acc.length + 1)) + 1 := by omega
        rw [hidx]
        simpa using hfail

/-! ### Small vector algebra facts -/

theorem add_smul_neg (v u : Vec3 K) (c : K) : v + c • (-u) = v - c • u := by
  simp only [Vec3.neg_def, Vec3.smul_def, Vec3.add_def, Vec3.sub_def, Vec3.mk.injEq]
  exact ⟨by ring, by ring, by ring⟩

/-- Numerically-0 and numerically-π angles are mutually exclusive as soon as
π exceeds twice the tolerance (true for both instantiations). -/
theorem isclose_zero_of_pi_exclusive {angle : K}
    (hsep : 2 * n.eps < n.pi) (h0 : isclose n angle 0 = true) :
    isclose n angle n.pi = false := by
  rw [isclose_false_iff]
  rw [isclose_true_iff] at h0
  intro hclose
  have ha : |angle| ≤ n.eps := by simpa using h0
  have hb : |n.pi - angle| ≤ n.eps := by rwa [abs_sub_comm] at hclose
  have hc : n.pi ≤ |n.pi - angle| + |angle| := by
    calc n.pi = (n.pi - angle) + angle := by ring
    _ ≤ |(n.pi - angle) + angle| := le_abs_self _
    _ ≤ |n.pi - angle| + |angle| := abs_add _ _
  linarith

/-! ### Claims C3 and C4: the placement kernel's branch behaviour -/

/-- C3: with a numerically nonzero bond-reference direction, an angle
numerically equal to π places the atom at `vb - bond • normalize (va - vb)`
and an angle numerically equal to 0 places it at
`vb + bond • normalize (va - vb)`; in both cases the result does not depend
on the dihedral value or on the dihedral reference position, and no
singularity is signalled. -/
theorem C3_parallel_antiparallel (n : NumOps K) (vb va vd : Vec3 K)
    (bond angle dihedral : K)
    (hBA : vecIsclose n (va - vb) 0 = false)
    (hsep : 2 * n.eps < n.pi) :
    (isclose n angle n.pi = true →
      jitCalcSinglePosition n vb va vd bond angle dihedral
          = some (vb - bond • normalize n (va - vb))
        ∧ ∀ (dihedral' : K) (vd' : Vec3 K),
            jitCalcSinglePosition n vb va vd' bond angle dihedral'
              = jitCalcSinglePosition n vb va vd bond angle dihedral) ∧
    (isclose n angle 0 = true →
      jitCalcSinglePosition n vb va vd bond angle dihedral
          = some (vb + bond • normalize n (va - vb))
        ∧ ∀ (dihedral' : K) (vd' : Vec3 K),
            jitCalcSinglePosition n vb va vd' bond angle dihedral'
              = jitCalcSinglePosition n vb va vd bond angle dihedral) := by
  constructor
  · intro hpi
    constructor
    · rw [singlePos_pi n vd dihedral hBA hpi, add_smul_neg]
    · intro dihedral' vd'
      rw [singlePos_pi n vd dihedral hBA hpi, singlePos_pi n vd' dihedral' hBA hpi]
  · intro h0
    have hpi : isclose n angle n.pi = false := isclose_zero_of_pi_exclusive n hsep h0
    constructor
    · rw [singlePos_zero n vd dihedral hBA hpi h0]
    · intro dihedral' vd'
      rw [singlePos_zero n vd dihedral hBA hpi h0,
        singlePos_zero n vd' dihedral' hBA hpi h0]

/-- Witness for C3 at a concrete input over the rationals: the hypotheses
hold, the anti-parallel branch fires at `angle = np.pi`, and the resulting
position evaluates to `(-2, 0, 0)`. -/
theorem C3_witness :
    jitCalcSinglePosition ratOps ⟨0, 0, 0⟩ ⟨1, 0, 0⟩ ⟨0, 1, 0⟩ 2 npPi 5
        = some ((⟨0, 0, 0⟩ : Vec3 ℚ) - (2 : ℚ) • normalize ratOps (⟨1, 0, 0⟩ - ⟨0, 0, 0⟩))
      ∧ (⟨0, 0, 0⟩ : Vec3 ℚ) - (2 : ℚ) • normalize ratOps (⟨1, 0, 0⟩ - ⟨0, 0, 0⟩)
        = ⟨-2, 0, 0⟩ := by
  constructor
  · exact ((C3_parallel_antiparallel ratOps ⟨0, 0, 0⟩ ⟨1, 0, 0⟩ ⟨0, 1, 0⟩ 2 npPi 5
      (by norm_num [vecIsclose, isclose, ratOps, ratEps])
      (by norm_num [ratOps, npPi, ratEps])).1
      (by norm_num [isclose, ratOps, npPi, ratEps])).1
  · norm_num [normalize, vnorm, Vec3.dot, ratOps, ratSqrt, isqrt]

/-- C4: the kernel signals a singularity exactly when the bond-reference
direction is numerically zero, or the angle is numerically neither 0 nor π
and the plane normal `BA × AD` is numerically zero; in the remaining
general branch it returns `vb` plus `bond • normalize BA` rotated by the
angle about `normalize (BA × AD)` and then by the dihedral about
`normalize BA`. -/
theorem C4_singularity_iff (n : NumOps K) (vb va vd : Vec3 K)
    (bond angle dihedral : K) :
    (jitCalcSinglePosition n vb va vd bond angle dihedral = none ↔
      (vecIsclose n (va - vb) 0 = true ∨
        (isclose n angle n.pi = false ∧ isclose n angle 0 = false ∧
          vecIsclose n (cross (va - vb) (vd - va)) 0 = true))) ∧
    (vecIsclose n (va - vb) 0 = false →
      isclose n angle n.pi = false → isclose n angle 0 = false →
      vecIsclose n (cross (va - vb) (vd - va)) 0 = false →
      jitCalcSinglePosition n vb va vd bond angle dihedral =
        some (vb + rotApply n (normalize n (va - vb)) dihedral
          (rotApply n (normalize n (cross (va - vb) (vd - va))) angle
            (bond • normalize n (va - vb))))) := by
  constructor
  · cases hBA : vecIsclose n (va - vb) 0
    · cases hpi : isclose n angle n.pi
      · cases h0 : isclose n angle 0
        · cases hN1 : vecIsclose n (cross (va - vb) (vd - va)) 0
          · rw [singlePos_general n hBA hpi h0 hN1]
            simp
          · rw [singlePos_N1_zero n bond angle dihedral hBA hpi h0 hN1]
            simp [hN1]
        · rw [singlePos_zero n vd dihedral hBA hpi h0]
          simp [h0]
      · rw [singlePos_pi n vd dihedral hBA hpi]
        simp [hpi]
    · rw [singlePos_BA_zero n vd bond angle dihedral hBA]
      simp
  · exact fun hBA hpi h0 hN1 => singlePos_general n hBA hpi h0 hN1

/-! ### Claim C2: order of processing and the failure payload -/

omit [LinearOrderedField K] in
@[simp] theorem length_ctableAfter (z : Zmat K) :
    (ctableAfter z).length = z.rows.length := by
  simp [ctableAfter]

@[simp] theorem length_valuesOf (z : Zmat K) :
    (valuesOf n z).length = z.rows.length := by
  simp [valuesOf]

theorem zip_getD {α β : Type} (l1 : List α) (l2 : List β) (d1 : α) (d2 : β)
    (k : Nat) (h1 : k < l1.length) (h2 : k < l2.length) :
    (l1.zip l2).getD k (d1, d2) = (l1.getD k d1, l2.getD k d2) := by
  rw [List.getD_eq_getElem _ _ (by rw [List.length_zip]; omega),
    List.getD_eq_getElem _ _ h1, List.getD_eq_getElem _ _ h2, List.getElem_zip]

/-- C2: the conversion processes rows in table order, stopping at the first
row whose kernel call signals a singularity.  A failure at table position
`r` yields an `InvalidReference` carrying the original id and the raw
`b`, `a`, `d` reference ids of row `r`, together with a partial Cartesian
holding exactly the `r` atoms already placed (their ids in table order,
paired with the computed positions); a run with no singularity yields a
Cartesian with positions for all atoms. -/
theorem C2_sequential_conversion (n : NumOps K) (z : Zmat K) :
    (∀ r ps, jitCalcPositions n (ctableAfter z) (valuesOf n z) = (some r, ps) →
      getCartesian n z =
          .error ⟨(z.rows.getD r zrow0).id, (z.rows.getD r zrow0).b,
            (z.rows.getD r zrow0).a, (z.rows.getD r zrow0).d,
            createCartesian z ps r⟩ ∧
        r = ps.length ∧ r < z.rows.length ∧
        (createCartesian z ps r).rows.length = r ∧
        (createCartesian z ps r).rows.map (·.id) = (z.rows.take r).map (·.id) ∧
        (∀ k, k < r →
          rowKernel n ((ctableAfter z).getD k (0, 0, 0))
              ((valuesOf n z).getD k (0, 0, 0)) (ps.take k) =
            some (ps.getD k 0)) ∧
        rowKernel n ((ctableAfter z).getD r (0, 0, 0))
          ((valuesOf n z).getD r (0, 0, 0)) ps = none) ∧
    (∀ ps, jitCalcPositions n (ctableAfter z) (valuesOf n z) = (none, ps) →
      getCartesian n z = .ok (createCartesian z ps z.rows.length) ∧
        ps.length = z.rows.length ∧
        (createCartesian z ps z.rows.length).rows.length = z.rows.length ∧
        ∀ k, k < z.rows.length →
          rowKernel n ((ctableAfter z).getD k (0, 0, 0))
              ((valuesOf n z).getD k (0, 0, 0)) (ps.take k) =
            some (ps.getD k 0)) := by
  have hzlen : ((ctableAfter z).zip (valuesOf n z)).length = z.rows.length := by
    rw [List.length_zip, length_ctableAfter, length_valuesOf]
    omega
  have hget : ∀ k, k < z.rows.length →
      ((ctableAfter z).zip (valuesOf n z)).getD k trow0 =
        ((ctableAfter z).getD k (0, 0, 0), (valuesOf n z).getD k (0, 0, 0)) := by
    intro k hk
    exact zip_getD _ _ _ _ k (by simpa using hk) (by simpa using hk)
  constructor
  · intro r ps h
    obtain ⟨-, hrlen, hlt, -, hrows, hfail⟩ :=
      go_err_spec n ((ctableAfter z).zip (valuesOf n z)) [] ps r h
    simp only [List.length_nil, Nat.zero_add, Nat.sub_zero] at hrlen hlt hrows hfail
    rw [hzlen] at hlt
    have hcc : (createCartesian z ps r).rows.length = r := by
      simp only [createCartesian, List.length_map, List.length_zip,
        List.length_take]
      omega
    refine ⟨?_, hrlen, hlt, hcc, ?_, ?_, ?_⟩
    · simp only [getCartesian, h]
    · simp only [createCartesian, List.map_map]
      have hco : ((fun x => x.id) ∘
            fun rp : ZRow K × Vec3 K => (⟨rp.1.id, rp.1.atom, rp.2⟩ : CartRow K))
          = (fun x => x.id) ∘ (Prod.fst : ZRow K × Vec3 K → ZRow K) := rfl
      rw [hco, ← List.map_map,
        List.map_fst_zip _ _ (by simp only [List.length_take]; omega)]
    · intro k hk
      have h2 := hrows k hk
      rw [hget k (by omega)] at h2
      exact h2
    · rw [hget r hlt] at hfail
      exact hfail
  · intro ps h
    obtain ⟨hlen, -, hrows⟩ :=
      go_ok_spec n ((ctableAfter z).zip (valuesOf n z)) [] ps h
    simp only [List.length_nil, Nat.zero_add] at hlen hrows
    rw [hzlen] at hlen
    have hcc : (createCartesian z ps z.rows.length).rows.length = z.rows.length := by
      simp only [createCartesian, List.length_map, List.length_zip,
        List.length_take]
      omega
    refine ⟨?_, hlen, hcc, ?_⟩
    · simp only [getCartesian, h]
    · intro k hk
      have h2 := hrows k (by omega)
      rw [hget k hk] at h2
      exact h2

/-- A concrete 4-atom molecule: three atoms laid out collinearly along the
x-axis through the parallel (angle 0) branch, and a fourth atom whose
bond/angle/dihedral references are those collinear atoms, so its plane
normal is numerically zero. -/
def zColl : Zmat ℚ :=
  ⟨[⟨0, .elem 1, -1, -2, -4, 1, 0, 0⟩,
    ⟨1, .elem 1, -1, -2, -4, 2, 0, 0⟩,
    ⟨2, .elem 1, -1, -2, -4, 3, 0, 0⟩,
    ⟨3, .elem 1, 2, 1, 0, 1, 90, 0⟩], [], ⟨[]⟩⟩

/-- The same molecule without its fourth atom (a fully regular input). -/
def zLine : Zmat ℚ :=
  ⟨[⟨0, .elem 1, -1, -2, -4, 1, 0, 0⟩,
    ⟨1, .elem 1, -1, -2, -4, 2, 0, 0⟩,
    ⟨2, .elem 1, -1, -2, -4, 3, 0, 0⟩], [], ⟨[]⟩⟩

theorem rowK_sentinel (bond : ℚ) :
    rowKernel ratOps (-1, -2, -4) (bond, radians ratOps 0, radians ratOps 0)
        = fun _ => some ⟨bond, 0, 0⟩ := by
  funext acc
  have e : rowKernel ratOps (-1, -2, -4) (bond, radians ratOps 0, radians ratOps 0) acc
      = jitCalcSinglePosition ratOps ⟨0, 0, 0⟩ ⟨1, 0, 0⟩ ⟨0, 0, 1⟩ bond
          (radians ratOps 0) (radians ratOps 0) := rfl
  rw [e, singlePos_zero ratOps _ _
    (by norm_num [vecIsclose, isclose, ratOps, ratEps])
    (by norm_num [isclose, radians, ratOps, npPi, ratEps, abs_of_pos, abs_of_neg])
    (by norm_num [isclose, radians, ratOps, npPi, ratEps])]
  norm_num [normalize, vnorm, Vec3.dot, ratSqrt, isqrt, ratOps]

theorem rowK_collinear :
    rowKernel ratOps (2, 1, 0) (1, radians ratOps 90, radians ratOps 0)
      [⟨1, 0, 0⟩, ⟨2, 0, 0⟩, ⟨3, 0, 0⟩] = none := by
  have e : rowKernel ratOps (2, 1, 0) (1, radians ratOps 90, radians ratOps 0)
        [⟨1, 0, 0⟩, ⟨2, 0, 0⟩, ⟨3, 0, 0⟩]
      = jitCalcSinglePosition ratOps ⟨3, 0, 0⟩ ⟨2, 0, 0⟩ ⟨1, 0, 0⟩ 1
          (radians ratOps 90) (radians ratOps 0) := rfl
  rw [e, singlePos_N1_zero ratOps _ _ _
    (by norm_num [vecIsclose, isclose, ratOps, ratEps])
    (by norm_num [isclose, radians, ratOps, npPi, ratEps, abs_of_pos, abs_of_neg])
    (by norm_num [isclose, radians, ratOps, npPi, ratEps, abs_of_pos, abs_of_neg])
    (by norm_num [vecIsclose, isclose, Vec3.cross, ratOps, ratEps])]

theorem zColl_run :
    jitCalcPositions ratOps (ctableAfter zColl) (valuesOf ratOps zColl)
      = (some 3, [⟨1, 0, 0⟩, ⟨2, 0, 0⟩, ⟨3, 0, 0⟩]) := by
  have hzip : (ctableAfter zColl).zip (valuesOf ratOps zColl)
      = [((-1, -2, -4), (1, radians ratOps 0, radians ratOps 0)),
         ((-1, -2, -4), (2, radians ratOps 0, radians ratOps 0)),
         ((-1, -2, -4), (3, radians ratOps 0, radians ratOps 0)),
         ((2, 1, 0), (1, radians ratOps 90, radians ratOps 0))] := rfl
  rw [jitCalcPositions, hzip,
    go_cons_ok ratOps _ (congrFun (rowK_sentinel 1) []),
    show ([] : List (Vec3 ℚ)) ++ [⟨1, 0, 0⟩] = [⟨1, 0, 0⟩] from rfl,
    go_cons_ok ratOps _ (congrFun (rowK_sentinel 2) [⟨1, 0, 0⟩]),
    show ([⟨1, 0, 0⟩] : List (Vec3 ℚ)) ++ [⟨2, 0, 0⟩] = [⟨1, 0, 0⟩, ⟨2, 0, 0⟩] from rfl,
    go_cons_ok ratOps _ (congrFun (rowK_sentinel 3) [⟨1, 0, 0⟩, ⟨2, 0, 0⟩]),
    show ([⟨1, 0, 0⟩, ⟨2, 0, 0⟩] : List (Vec3 ℚ)) ++ [⟨3, 0, 0⟩]
      = [⟨1, 0, 0⟩, ⟨2, 0, 0⟩, ⟨3, 0, 0⟩] from rfl,
    go_cons_err ratOps _ rowK_collinear]
  rfl

theorem zLine_run :
    jitCalcPositions ratOps (ctableAfter zLine) (valuesOf ratOps zLine)
      = (none, [⟨1, 0, 0⟩, ⟨2, 0, 0⟩, ⟨3, 0, 0⟩]) := by
  have hzip : (ctableAfter zLine).zip (valuesOf ratOps zLine)
      = [((-1, -2, -4), (1, radians ratOps 0, radians ratOps 0)),
         ((-1, -2, -4), (2, radians ratOps 0, radians ratOps 0)),
         ((-1, -2, -4), (3, radians ratOps 0, radians ratOps 0))] := rfl
  rw [jitCalcPositions, hzip,
    go_cons_ok ratOps _ (congrFun (rowK_sentinel 1) []),
    show ([] : List (Vec3 ℚ)) ++ [⟨1, 0, 0⟩] = [⟨1, 0, 0⟩] from rfl,
    go_cons_ok ratOps _ (congrFun (rowK_sentinel 2) [⟨1, 0, 0⟩]),
    show ([⟨1, 0, 0⟩] : List (Vec3 ℚ)) ++ [⟨2, 0, 0⟩] = [⟨1, 0, 0⟩, ⟨2, 0, 0⟩] from rfl,
    go_cons_ok ratOps _ (congrFun (rowK_sentinel 3) [⟨1, 0, 0⟩, ⟨2, 0, 0⟩]),
    show ([⟨1, 0, 0⟩, ⟨2, 0, 0⟩] : List (Vec3 ℚ)) ++ [⟨3, 0, 0⟩]
      = [⟨1, 0, 0⟩, ⟨2, 0, 0⟩, ⟨3, 0, 0⟩] from rfl,
    go_nil]

/-- Witness for C2 at the concrete molecules: the failing run raises
`InvalidReference` with the original id/refs of the fourth atom and the
three already-placed positions, and the regular run returns the full
Cartesian. -/
theorem C2_witness :
    getCartesian ratOps zColl =
        .error ⟨3, 2, 1, 0, createCartesian zColl [⟨1, 0, 0⟩, ⟨2, 0, 0⟩, ⟨3, 0, 0⟩] 3⟩
      ∧ (createCartesian zColl [⟨1, 0, 0⟩, ⟨2, 0, 0⟩, ⟨3, 0, 0⟩] 3).rows.length = 3
      ∧ rowKernel ratOps ((ctableAfter zColl).getD 3 (0, 0, 0))
          ((valuesOf ratOps zColl).getD 3 (0, 0, 0)) [⟨1, 0, 0⟩, ⟨2, 0, 0⟩, ⟨3, 0, 0⟩]
          = none
      ∧ getCartesian ratOps zLine =
          .ok (createCartesian zLine [⟨1, 0, 0⟩, ⟨2, 0, 0⟩, ⟨3, 0, 0⟩] 3)
      ∧ [(⟨1, 0, 0⟩ : Vec3 ℚ), ⟨2, 0, 0⟩, ⟨3, 0, 0⟩].length = zLine.rows.length := by
  have h1 := (C2_sequential_conversion ratOps zColl).1 3
    [⟨1, 0, 0⟩, ⟨2, 0, 0⟩, ⟨3, 0, 0⟩] zColl_run
  have h2 := (C2_sequential_conversion ratOps zLine).2
    [⟨1, 0, 0⟩, ⟨2, 0, 0⟩, ⟨3, 0, 0⟩] zLine_run
  exact ⟨h1.1, h1.2.2.2.1, h1.2.2.2.2.2.2, h2.1, h2.2.1⟩

/-! ### Claim C6 (corrected): no structural validation of the table -/

/-- C6 (amended): the conversion performs no structural validation of the
construction table — the only check at construction time is for required
columns.  Every failure `get_cartesian` can produce is a placement-kernel
singularity at some row (reached after all earlier rows were placed by
kernel calls); a forward reference is not rejected, the builder simply
reads an unwritten position and invokes the kernel on it. -/
theorem C6_no_structural_rejection (n : NumOps K) (z : Zmat K)
    (e : InvalidRef K) (h : getCartesian n z = .error e) :
    ∃ r ps, jitCalcPositions n (ctableAfter z) (valuesOf n z) = (some r, ps) ∧
      r < z.rows.length ∧
      rowKernel n ((ctableAfter z).getD r (0, 0, 0))
        ((valuesOf n z).getD r (0, 0, 0)) ps = none ∧
      e = ⟨(z.rows.getD r zrow0).id, (z.rows.getD r zrow0).b,
        (z.rows.getD r zrow0).a, (z.rows.getD r zrow0).d,
        createCartesian z ps r⟩ := by
  rcases hrun : jitCalcPositions n (ctableAfter z) (valuesOf n z) with ⟨err, ps⟩
  rcases err with _ | r
  · rw [getCartesian, hrun] at h
    exact absurd h (by simp)
  · obtain ⟨herr, -, hlt, -, -, -, hfail⟩ :=
      (C2_sequential_conversion n z).1 r ps hrun
    rw [herr] at h
    exact ⟨r, ps, rfl, hlt, hfail, by injection h with h2; exact h2.symm⟩

/-- A table with a forward reference: the fourth atom's bond and angle
references point at atom 4, which occurs later in table order. -/
def zFwd : Zmat ℚ :=
  ⟨[⟨0, .elem 1, -1, -2, -4, 1, 0, 0⟩,
    ⟨1, .elem 1, -1, -2, -4, 2, 0, 0⟩,
    ⟨2, .elem 1, -1, -2, -4, 3, 0, 0⟩,
    ⟨3, .elem 1, 4, 4, 0, 1, 90, 0⟩,
    ⟨4, .elem 1, -1, -2, -4, 5, 0, 0⟩], [], ⟨[]⟩⟩

theorem zFwd_run :
    jitCalcPositions ratOps (ctableAfter zFwd) (valuesOf ratOps zFwd)
      = (some 3, [⟨1, 0, 0⟩, ⟨2, 0, 0⟩, ⟨3, 0, 0⟩]) := by
  have hzip : (ctableAfter zFwd).zip (valuesOf ratOps zFwd)
      = [((-1, -2, -4), (1, radians ratOps 0, radians ratOps 0)),
         ((-1, -2, -4), (2, radians ratOps 0, radians ratOps 0)),
         ((-1, -2, -4), (3, radians ratOps 0, radians ratOps 0)),
         ((4, 4, 0), (1, radians ratOps 90, radians ratOps 0)),
         ((-1, -2, -4), (5, radians ratOps 0, radians ratOps 0))] := rfl
  have hfwd : rowKernel ratOps (4, 4, 0) (1, radians ratOps 90, radians ratOps 0)
      [⟨1, 0, 0⟩, ⟨2, 0, 0⟩, ⟨3, 0, 0⟩] = none := by
    have e : rowKernel ratOps (4, 4, 0) (1, radians ratOps 90, radians ratOps 0)
          [⟨1, 0, 0⟩, ⟨2, 0, 0⟩, ⟨3, 0, 0⟩]
        = jitCalcSinglePosition ratOps uninitPos uninitPos ⟨1, 0, 0⟩ 1
            (radians ratOps 90) (radians ratOps 0) := rfl
    rw [e]
    exact singlePos_BA_zero ratOps _ _ _ _
      (by norm_num [vecIsclose, isclose, uninitPos, ratOps, ratEps])
  rw [jitCalcPositions, hzip,
    go_cons_ok ratOps _ (congrFun (rowK_sentinel 1) []),
    show ([] : List (Vec3 ℚ)) ++ [⟨1, 0, 0⟩] = [⟨1, 0, 0⟩] from rfl,
    go_cons_ok ratOps _ (congrFun (rowK_sentinel 2) [⟨1, 0, 0⟩]),
    show ([⟨1, 0, 0⟩] : List (Vec3 ℚ)) ++ [⟨2, 0, 0⟩] = [⟨1, 0, 0⟩, ⟨2, 0, 0⟩] from rfl,
    go_cons_ok ratOps _ (congrFun (rowK_sentinel 3) [⟨1, 0, 0⟩, ⟨2, 0, 0⟩]),
    show ([⟨1, 0, 0⟩, ⟨2, 0, 0⟩] : List (Vec3 ℚ)) ++ [⟨3, 0, 0⟩]
      = [⟨1, 0, 0⟩, ⟨2, 0, 0⟩, ⟨3, 0, 0⟩] from rfl,
    go_cons_err ratOps _ hfwd]
  rfl

/-- Counterexample to C6 as stated: `zFwd`'s fourth atom forward-references
atom 4 (later in table order), yet the conversion is not rejected before
placement — the first three atoms are placed by kernel calls and the
outcome is the ordinary `InvalidReference` singularity raised by the kernel
at the forward-referencing row itself (there is no structural-error outcome
at all). -/
theorem C6_counterexample :
    getCartesian ratOps zFwd =
        .error ⟨3, 4, 4, 0, createCartesian zFwd [⟨1, 0, 0⟩, ⟨2, 0, 0⟩, ⟨3, 0, 0⟩] 3⟩
      ∧ rowKernel ratOps ((ctableAfter zFwd).getD 3 (0, 0, 0))
          ((valuesOf ratOps zFwd).getD 3 (0, 0, 0)) [⟨1, 0, 0⟩, ⟨2, 0, 0⟩, ⟨3, 0, 0⟩]
          = none
      ∧ (createCartesian zFwd [⟨1, 0, 0⟩, ⟨2, 0, 0⟩, ⟨3, 0, 0⟩] 3).rows.length = 3 := by
  have h := (C2_sequential_conversion ratOps zFwd).1 3
    [⟨1, 0, 0⟩, ⟨2, 0, 0⟩, ⟨3, 0, 0⟩] zFwd_run
  exact ⟨h.1, h.2.2.2.2.2.2, h.2.2.2.1⟩

/-- Witness for the amended C6, applying it to the concrete failing run on
the forward-referencing table. -/
theorem C6_witness :
    ∃ r ps, jitCalcPositions ratOps (ctableAfter zFwd) (valuesOf ratOps zFwd)
        = (some r, ps) ∧
      r < zFwd.rows.length ∧
      rowKernel ratOps ((ctableAfter zFwd).getD r (0, 0, 0))
        ((valuesOf ratOps zFwd).getD r (0, 0, 0)) ps = none ∧
      (⟨3, 4, 4, 0, createCartesian zFwd [⟨1, 0, 0⟩, ⟨2, 0, 0⟩, ⟨3, 0, 0⟩] 3⟩ : InvalidRef ℚ)
        = ⟨(zFwd.rows.getD r zrow0).id, (zFwd.rows.getD r zrow0).b,
          (zFwd.rows.getD r zrow0).a, (zFwd.rows.getD r zrow0).d,
          createCartesian zFwd ps r⟩ := by
  apply C6_no_structural_rejection ratOps zFwd
  have h := (C2_sequential_conversion ratOps zFwd).1 3
    [⟨1, 0, 0⟩, ⟨2, 0, 0⟩, ⟨3, 0, 0⟩] zFwd_run
  exact h.1

/-! ### Claim C7 (corrected): the first three atoms -/

/-- C7 (amended): a row whose (renumbered) construction-table entries are
all sentinels is placed from the absolute reference frame and its own value
row alone — the kernel call does not read any other atom's position, so the
result is the same whatever positions have been built; consequently, on a
successful conversion such a row's position is the kernel applied to the
three fixed frame points, which does depend on the row's `b`, `a`, `d`
sentinel choices and bond/angle/dihedral values (it is not in general one
of the frame's fixed points). -/
theorem C7_sentinel_rows (n : NumOps K) (z : Zmat K) (k : Nat)
    (hb : ((ctableAfter z).getD k (0, 0, 0)).1 < 0)
    (ha : ((ctableAfter z).getD k (0, 0, 0)).2.1 < 0)
    (hd : ((ctableAfter z).getD k (0, 0, 0)).2.2 < 0) :
    (∀ built : List (Vec3 K),
      rowKernel n ((ctableAfter z).getD k (0, 0, 0))
          ((valuesOf n z).getD k (0, 0, 0)) built
        = jitCalcSinglePosition n
            (jitAbsoluteRefs ((ctableAfter z).getD k (0, 0, 0)).1)
            (jitAbsoluteRefs ((ctableAfter z).getD k (0, 0, 0)).2.1)
            (jitAbsoluteRefs ((ctableAfter z).getD k (0, 0, 0)).2.2)
            ((valuesOf n z).getD k (0, 0, 0)).1
            ((valuesOf n z).getD k (0, 0, 0)).2.1
            ((valuesOf n z).getD k (0, 0, 0)).2.2) ∧
    (∀ ps, jitCalcPositions n (ctableAfter z) (valuesOf n z) = (none, ps) →
      k < z.rows.length →
      some (ps.getD k 0)
        = jitCalcSinglePosition n
            (jitAbsoluteRefs ((ctableAfter z).getD k (0, 0, 0)).1)
            (jitAbsoluteRefs ((ctableAfter z).getD k (0, 0, 0)).2.1)
            (jitAbsoluteRefs ((ctableAfter z).getD k (0, 0, 0)).2.2)
            ((valuesOf n z).getD k (0, 0, 0)).1
            ((valuesOf n z).getD k (0, 0, 0)).2.1
            ((valuesOf n z).getD k (0, 0, 0)).2.2) := by
  have hind : ∀ built : List (Vec3 K),
      rowKernel n ((ctableAfter z).getD k (0, 0, 0))
          ((valuesOf n z).getD k (0, 0, 0)) built
        = jitCalcSinglePosition n
            (jitAbsoluteRefs ((ctableAfter z).getD k (0, 0, 0)).1)
            (jitAbsoluteRefs ((ctableAfter z).getD k (0, 0, 0)).2.1)
            (jitAbsoluteRefs ((ctableAfter z).getD k (0, 0, 0)).2.2)
            ((valuesOf n z).getD k (0, 0, 0)).1
            ((valuesOf n z).getD k (0, 0, 0)).2.1
            ((valuesOf n z).getD k (0, 0, 0)).2.2 := by
    intro built
    rw [rowKernel, refPos, refPos, refPos, keysBelowAreAbsRefs,
      if_pos hb, if_pos ha, if_pos hd]
  refine ⟨hind, ?_⟩
  intro ps hrun hk
  obtain ⟨-, -, -, hrows⟩ := (C2_sequential_conversion n z).2 ps hrun
  rw [← hind (ps.take k)]
  exact (hrows k hk).symm

/-- A single-atom molecule with all-sentinel references and bond 5. -/
def zSingle : Zmat ℚ := ⟨[⟨0, .elem 1, -1, -2, -4, 5, 0, 0⟩], [], ⟨[]⟩⟩

/-- The same single atom with bond and angle sentinels swapped. -/
def zSingleSwap : Zmat ℚ := ⟨[⟨0, .elem 1, -2, -1, -4, 5, 0, 0⟩], [], ⟨[]⟩⟩

/-- Counterexample to C7 as stated: a first atom using only sentinel
references is placed at `(5, 0, 0)`, which is none of the frame's fixed
points (`(0,0,0)`, `(1,0,0)`, `(0,1,0)`, `(0,0,1)`); and swapping the
stored `b`/`a` sentinel values moves it to `(-4, 0, 0)`, so the position is
not independent of the stored `b`/`a`/`d` entries either. -/
theorem C7_counterexample :
    getCartesian ratOps zSingle = .ok ⟨[⟨0, .elem 1, ⟨5, 0, 0⟩⟩]⟩
      ∧ getCartesian ratOps zSingleSwap = .ok ⟨[⟨0, .elem 1, ⟨-4, 0, 0⟩⟩]⟩
      ∧ ((⟨5, 0, 0⟩ : Vec3 ℚ) ≠ ⟨0, 0, 0⟩ ∧ (⟨5, 0, 0⟩ : Vec3 ℚ) ≠ ⟨1, 0, 0⟩
        ∧ (⟨5, 0, 0⟩ : Vec3 ℚ) ≠ ⟨0, 1, 0⟩ ∧ (⟨5, 0, 0⟩ : Vec3 ℚ) ≠ ⟨0, 0, 1⟩)
      ∧ (⟨5, 0, 0⟩ : Vec3 ℚ) ≠ ⟨-4, 0, 0⟩ := by
  refine ⟨?_, ?_, by norm_num [Vec3.mk.injEq], by norm_num [Vec3.mk.injEq]⟩
  · have hrun : jitCalcPositions ratOps (ctableAfter zSingle) (valuesOf ratOps zSingle)
        = (none, [⟨5, 0, 0⟩]) := by
      have hzip : (ctableAfter zSingle).zip (valuesOf ratOps zSingle)
          = [((-1, -2, -4), (5, radians ratOps 0, radians ratOps 0))] := rfl
      rw [jitCalcPositions, hzip,
        go_cons_ok ratOps _ (congrFun (rowK_sentinel 5) []), go_nil]
      rfl
    have h := (C2_sequential_conversion ratOps zSingle).2 [⟨5, 0, 0⟩] hrun
    exact h.1
  · have hrow : rowKernel ratOps (-2, -1, -4) ((5 : ℚ), radians ratOps 0, radians ratOps 0) []
        = some ⟨-4, 0, 0⟩ := by
      have e : rowKernel ratOps (-2, -1, -4) ((5 : ℚ), radians ratOps 0, radians ratOps 0) []
          = jitCalcSinglePosition ratOps ⟨1, 0, 0⟩ ⟨0, 0, 0⟩ ⟨0, 0, 1⟩ 5
              (radians ratOps 0) (radians ratOps 0) := rfl
      rw [e, singlePos_zero ratOps _ _
        (by norm_num [vecIsclose, isclose, ratOps, ratEps])
        (by norm_num [isclose, radians, ratOps, npPi, ratEps, abs_of_pos, abs_of_neg])
        (by norm_num [isclose, radians, ratOps, npPi, ratEps])]
      norm_num [normalize, vnorm, Vec3.dot, ratSqrt, isqrt, ratOps]
    have hrun : jitCalcPositions ratOps (ctableAfter zSingleSwap)
          (valuesOf ratOps zSingleSwap) = (none, [⟨-4, 0, 0⟩]) := by
      have hzip : (ctableAfter zSingleSwap).zip (valuesOf ratOps zSingleSwap)
          = [((-2, -1, -4), (5, radians ratOps 0, radians ratOps 0))] := rfl
      rw [jitCalcPositions, hzip, go_cons_ok ratOps _ hrow, go_nil]
      rfl
    have h := (C2_sequential_conversion ratOps zSingleSwap).2 [⟨-4, 0, 0⟩] hrun
    exact h.1

/-- Witness for the amended C7 at the concrete regular molecule: the first
row's position from the successful run equals the kernel applied to the
absolute frame points and that row's own values. -/
theorem C7_witness :
    some ((⟨1, 0, 0⟩ : Vec3 ℚ))
      = jitCalcSinglePosition ratOps (jitAbsoluteRefs (-1)) (jitAbsoluteRefs (-2))
          (jitAbsoluteRefs (-4)) 1 (radians ratOps 0) (radians ratOps 0) := by
  have h := (C7_sentinel_rows ratOps zLine 0 (by decide) (by decide) (by decide)).2
    [⟨1, 0, 0⟩, ⟨2, 0, 0⟩, ⟨3, 0, 0⟩] zLine_run (by norm_num [zLine])
  exact h

/-- Witness for C4 at concrete inputs over the rationals: one singular case
(three collinear reference points) where the equivalence yields `none`, and
the hypotheses of the general branch discharged at a non-collinear input. -/
theorem C4_witness :
    jitCalcSinglePosition ratOps ⟨0, 0, 0⟩ ⟨1, 0, 0⟩ ⟨2, 0, 0⟩ 1 (npPi / 2) 0
        = none
      ∧ jitCalcSinglePosition ratOps ⟨0, 0, 0⟩ ⟨1, 0, 0⟩ ⟨1, 1, 0⟩ 1 (npPi / 2) 0
        = some ((⟨0, 0, 0⟩ : Vec3 ℚ) +
            rotApply ratOps (normalize ratOps (⟨1, 0, 0⟩ - ⟨0, 0, 0⟩)) 0
              (rotApply ratOps
                (normalize ratOps
                  (cross ((⟨1, 0, 0⟩ : Vec3 ℚ) - ⟨0, 0, 0⟩) (⟨1, 1, 0⟩ - ⟨1, 0, 0⟩)))
                (npPi / 2) ((1 : ℚ) • normalize ratOps (⟨1, 0, 0⟩ - ⟨0, 0, 0⟩)))) := by
  constructor
  · exact (C4_singularity_iff ratOps ⟨0, 0, 0⟩ ⟨1, 0, 0⟩ ⟨2, 0, 0⟩ 1 (npPi / 2) 0).1.mpr
      (Or.inr ⟨by norm_num [isclose, ratOps, npPi, ratEps, abs_of_pos, abs_of_neg],
        by norm_num [isclose, ratOps, npPi, ratEps, abs_of_pos, abs_of_neg],
        by norm_num [vecIsclose, isclose, Vec3.cross, ratOps, ratEps]⟩)
  · exact (C4_singularity_iff ratOps ⟨0, 0, 0⟩ ⟨1, 0, 0⟩ ⟨1, 1, 0⟩ 1 (npPi / 2) 0).2
      (by norm_num [vecIsclose, isclose, ratOps, ratEps])
      (by norm_num [isclose, ratOps, npPi, ratEps, abs_of_pos, abs_of_neg])
      (by norm_num [isclose, ratOps, npPi, ratEps, abs_of_pos, abs_of_neg])
      (by norm_num [vecIsclose, isclose, Vec3.cross, ratOps, ratEps])

/-! ### Structure lemmas for the removal machinery -/

theorem length_setD (rows : List (ZRow K)) (i d : Int) :
    (setD rows i d).length = rows.length := by
  simp [setD]

theorem setD_mem_d {rows : List (ZRow K)} {i newD : Int} {r : ZRow K}
    (hr : r ∈ setD rows i newD) (hid : r.id = i) : r.d = newD := by
  simp only [setD, List.mem_map] at hr
  obtain ⟨r₀, -, heq⟩ := hr
  by_cases h : r₀.id = i
  · rw [if_pos h] at heq
    rw [← heq]
  · rw [if_neg h] at heq
    rw [← heq] at hid
    exact absurd hid h

theorem setD_mem_of_ne {rows : List (ZRow K)} {i newD : Int} {r : ZRow K}
    (hr : r ∈ setD rows i newD) (hid : r.id ≠ i) :
    r ∈ rows := by
  simp only [setD, List.mem_map] at hr
  obtain ⟨r₀, h₀, heq⟩ := hr
  by_cases h : r₀.id = i
  · rw [if_pos h] at heq
    rw [← heq] at hid
    exact absurd h hid
  · rw [if_neg h] at heq
    rw [← heq]
    exact h₀

theorem length_removeRestoreRows (z : Zmat K) (toRemove : List Int) :
    (removeRestoreRows z toRemove).length = z.rows.length := by
  rw [removeRestoreRows]
  generalize z.rows = rows
  induction toRemove generalizing rows with
  | nil => rfl
  | cons k ks ih => rw [List.foldl_cons, ih, length_setD]

theorem removeRecomputeRows_mem {cart : Cartesian K} {toRemove : List Int}
    {rows : List (ZRow K)} {r : ZRow K}
    (hr : r ∈ removeRecomputeRows n cart toRemove rows) :
    ∃ r₀ ∈ rows, r.id = r₀.id ∧ r.b = r₀.b ∧ r.a = r₀.a ∧ r.d = r₀.d ∧
      (toRemove.contains r.id = true →
        r.bond = (calculateZmatValues n cart (r.id, r.b, r.a, r.d)).1 ∧
        r.angle = (calculateZmatValues n cart (r.id, r.b, r.a, r.d)).2.1 ∧
        r.dihedral = (calculateZmatValues n cart (r.id, r.b, r.a, r.d)).2.2) := by
  simp only [removeRecomputeRows, List.mem_map] at hr
  obtain ⟨r₀, h₀, heq⟩ := hr
  by_cases h : toRemove.contains r₀.id
  · rw [if_pos h] at heq
    subst heq
    exact ⟨r₀, h₀, rfl, rfl, rfl, rfl, fun _ => ⟨rfl, rfl, rfl⟩⟩
  · rw [if_neg h] at heq
    subst heq
    exact ⟨r₀, h₀, rfl, rfl, rfl, rfl, fun hc => absurd hc h⟩

theorem length_removeRecomputeRows (cart : Cartesian K) (toRemove : List Int)
    (rows : List (ZRow K)) :
    (removeRecomputeRows n cart toRemove rows).length = rows.length := by
  simp [removeRecomputeRows]

/-- Rows untouched by the restore fold (id not listed) come from the
original list. -/
theorem foldl_setD_mem_of_not_mem {f : Int → Int} {ks : List Int}
    {rows : List (ZRow K)} {r : ZRow K}
    (hr : r ∈ ks.foldl (fun rs k => setD rs k (f k)) rows)
    (hid : r.id ∉ ks) : r ∈ rows := by
  induction ks generalizing rows with
  | nil => exact hr
  | cons k ks ih =>
    rw [List.foldl_cons] at hr
    have h2 := ih hr (fun hc => hid (List.mem_cons_of_mem _ hc))
    exact setD_mem_of_ne h2 (fun hc => hid (by rw [hc]; exact List.mem_cons_self _ _))

/-- A row whose id is listed comes out of the restore fold with its `d` set
to the fold's value for that id. -/
theorem foldl_setD_mem_d {f : Int → Int} {ks : List Int}
    {rows : List (ZRow K)} {r : ZRow K}
    (hr : r ∈ ks.foldl (fun rs k => setD rs k (f k)) rows)
    (hid : r.id ∈ ks) : r.d = f r.id := by
  induction ks generalizing rows with
  | nil => exact absurd hid (List.not_mem_nil _)
  | cons k ks ih =>
    rw [List.foldl_cons] at hr
    by_cases hagain : r.id ∈ ks
    · exact ih hr hagain
    · have hk : r.id = k := by
        rcases List.mem_cons.mp hid with h | h
        · exact h
        · exact absurd h hagain
      have h2 := foldl_setD_mem_of_not_mem hr hagain
      rw [hk]
      exact setD_mem_d h2 hk

/-- The restore fold leaves a row's `d` at the `actual_d` of its own id,
whenever the row's id is listed. -/
theorem removeRestoreRows_mem_d {z : Zmat K} {toRemove : List Int} {r : ZRow K}
    (hr : r ∈ removeRestoreRows z toRemove) (hid : r.id ∈ toRemove) :
    r.d = (dummyEntryOf z r.id).actualD :=
  foldl_setD_mem_d hr hid

theorem removeDummiesCore_nil (z : Zmat K) :
    removeDummiesCore n z [] = .ok (z, []) := rfl

theorem removeDummiesCore_err {z : Zmat K} {toRemove : List Int}
    {e : InvalidRef K} (hne : toRemove.isEmpty = false)
    (h : getCartesian n { z with rows := removeRestoreRows z toRemove } = .error e) :
    removeDummiesCore n z toRemove = .error e := by
  rw [removeDummiesCore, if_neg (by simp [hne]), h]

theorem removeDummiesCore_ok_char {z z₁ : Zmat K} {ns : List Notice}
    {toRemove : List Int} (hne : toRemove.isEmpty = false)
    (h : removeDummiesCore n z toRemove = .ok (z₁, ns)) :
    ∃ cart, getCartesian n { z with rows := removeRestoreRows z toRemove } = .ok cart ∧
      z₁.rows = (removeRecomputeRows n cart toRemove
          (removeRestoreRows z toRemove)).filter
        (fun r => decide (r.id ∉ removeDummyIds z toRemove)) ∧
      z₁.hasDummies = z.hasDummies.filter (fun en => decide (en.i ∉ toRemove)) ∧
      z₁.lastValidCartesian = z.lastValidCartesian ∧
      ns = [.dummiesRemoved toRemove] := by
  rw [removeDummiesCore, if_neg (by simp [hne])] at h
  rcases hget : getCartesian n { z with rows := removeRestoreRows z toRemove }
    with e | cart
  · rw [hget] at h
    exact absurd h (by simp)
  · rw [hget] at h
    have h2 := Except.ok.inj h
    have hz : z₁ = { z with
        rows := (removeRecomputeRows n cart toRemove
            (removeRestoreRows z toRemove)).filter
          (fun r => decide (r.id ∉ removeDummyIds z toRemove))
        hasDummies := z.hasDummies.filter (fun en => decide (en.i ∉ toRemove)) } :=
      (congrArg Prod.fst h2).symm
    have hns : ns = [.dummiesRemoved toRemove] := (congrArg Prod.snd h2).symm
    exact ⟨cart, rfl, by rw [hz], by rw [hz], by rw [hz], hns⟩

theorem findPos_lt_length {ids : List Int} {v : Int} {k : Nat}
    (h : findPos ids v = some k) : k < ids.length := by
  induction ids generalizing k with
  | nil => exact absurd h (by simp [findPos])
  | cons i rest ih =>
    rw [findPos] at h
    by_cases hi : i = v
    · rw [if_pos hi] at h
      injection h with h2
      simp only [List.length_cons]
      omega
    · rw [if_neg hi] at h
      rcases hfp : findPos rest v with _ | k'
      · rw [hfp] at h
        exact absurd h (by simp)
      · rw [hfp] at h
        have h2 : k' + 1 = k := by simpa using h
        have h3 := ih hfp
        simp only [List.length_cons]
        omega

theorem insertRowAt_length (rows : List (ZRow K)) (pos : Nat) (row : ZRow K)
    (hpos : pos ≤ rows.length) :
    (insertRowAt rows pos row).length = rows.length + 1 := by
  rw [insertRowAt]
  simp only [List.length_append, List.length_take, List.length_cons,
    List.length_drop, List.length_nil]
  omega

theorem insertDummyOp_rows_length (z : Zmat K) (i : Int)
    (dummyCart : Cartesian K) (dummyD : Int) :
    (insertDummyOp n z i dummyCart dummyD).1.rows.length = z.rows.length + 1 := by
  have hpos : (findPos z.ids i).getD 0 ≤ z.rows.length := by
    rcases hfp : findPos z.ids i with _ | k
    · simp
    · have := findPos_lt_length hfp
      simp only [Zmat.ids, List.length_map] at this
      simp only [Option.getD_some]
      omega
  simp only [insertDummyOp, length_setD]
  rw [insertRowAt_length _ _ _ hpos]

/-! ### Claim C8: the toggle rule -/

/-- C8: when recovery is invoked for an atom id already present in the
dummy map, the operation performed is the removal of that atom's dummy —
its `d` is restored to the recorded `actual_d`, the dummy-map shrinks, and
no row is added (an error inside the removal propagates out of the recovery
run unchanged); a fresh insertion — adding exactly one row and the map
entry `⟨i, maxId + 1, current d⟩` — happens only for atom ids not in the
dummy map. -/
theorem C8_toggle_rule (n : NumOps K) (fuel : Nat) (z : Zmat K)
    (e : InvalidRef K) :
    ((z.lookupDummy e.i).isSome = true →
      toggleStep n z e = removeDummiesCore n z [e.i] ∧
      (∀ e', removeDummiesCore n z [e.i] = .error e' →
        insertDummyZmat n (fuel + 1) z e = .failed e') ∧
      (∀ z₁ ns, removeDummiesCore n z [e.i] = .ok (z₁, ns) →
        z₁.hasDummies.length < z.hasDummies.length ∧
        z₁.rows.length ≤ z.rows.length ∧
        ∀ r ∈ z₁.rows, r.id = e.i → r.d = (dummyEntryOf z e.i).actualD)) ∧
    ((z.lookupDummy e.i).isSome = false →
      toggleStep n z e =
          .ok ((insertDummyOp n z e.i (insertDummyCart n z e).1
              (insertDummyCart n z e).2).1,
            [.dummyInserted e.i (insertDummyCart n z e).2]) ∧
      (insertDummyOp n z e.i (insertDummyCart n z e).1
          (insertDummyCart n z e).2).1.rows.length = z.rows.length + 1 ∧
      (insertDummyCart n z e).2 = z.maxId + 1 ∧
      (insertDummyOp n z e.i (insertDummyCart n z e).1
          (insertDummyCart n z e).2).1.hasDummies =
        (z.hasDummies.filter fun en => decide (en.i ≠ e.i)) ++
          [⟨e.i, (insertDummyCart n z e).2, (z.rowOf e.i).d⟩]) := by
  constructor
  · intro hSome
    refine ⟨by rw [toggleStep, if_pos hSome], ?_, ?_⟩
    · intro e' herr
      rw [insertDummyZmat, toggleStep, if_pos hSome, herr]
    · intro z₁ ns hok
      obtain ⟨cart, -, hrows, hdum, -, -⟩ :=
        removeDummiesCore_ok_char n (by rfl) hok
      refine ⟨?_, ?_, ?_⟩
      · rw [hdum]
        rcases hfind : z.hasDummies.find? (fun en => decide (en.i = e.i))
          with _ | en
        · rw [Zmat.lookupDummy, hfind] at hSome
          exact absurd hSome (by simp)
        · have hmem := List.mem_of_find?_eq_some hfind
          have hpred := List.find?_some hfind
          rw [List.length_filter_lt_length_iff_exists]
          refine ⟨en, hmem, ?_⟩
          simp only [decide_eq_true_eq] at hpred
          simp [hpred]
      · rw [hrows]
        calc ((removeRecomputeRows n cart [e.i]
              (removeRestoreRows z [e.i])).filter _).length
            ≤ (removeRecomputeRows n cart [e.i]
                (removeRestoreRows z [e.i])).length := List.length_filter_le _ _
          _ = z.rows.length := by
              rw [length_removeRecomputeRows, length_removeRestoreRows]
      · intro r hr hid
        rw [hrows] at hr
        have hr2 := List.mem_of_mem_filter hr
        obtain ⟨r₀, h₀, hid0, -, -, hd0, -⟩ := removeRecomputeRows_mem n hr2
        have : r₀.d = (dummyEntryOf z r₀.id).actualD :=
          removeRestoreRows_mem_d h₀ (by rw [← hid0, hid]; exact List.mem_singleton.mpr rfl)
        rw [hd0, this, ← hid0, hid]
  · intro hNone
    refine ⟨?_, insertDummyOp_rows_length n z e.i _ _, rfl, rfl⟩
    rw [toggleStep, if_neg (by simp [hNone])]
    rfl

/-! ### A concrete mid-recovery state on which recovery cannot progress -/

/-- A state mid-recovery: atoms 0–2 collinear on the x-axis, a dummy atom 5
(recorded in `has_dummies` as inserted for atom 3 with original `d`
reference 0) also on the x-axis, and atom 3 currently pointing its `d` at
the dummy.  Both the dummy-based and the restored references of atom 3 are
collinear, so neither direction of the toggle can resolve it. -/
def zTog : Zmat ℚ :=
  ⟨[⟨0, .elem 1, -1, -2, -4, 1, 0, 0⟩,
    ⟨1, .elem 1, -1, -2, -4, 2, 0, 0⟩,
    ⟨2, .elem 1, -1, -2, -4, 3, 0, 0⟩,
    ⟨5, .X, -1, -2, -4, 4, 0, 0⟩,
    ⟨3, .elem 1, 2, 1, 5, 1, 90, 0⟩],
   [⟨3, 5, 0⟩], ⟨[]⟩⟩

/-- The partial Cartesian built before atom 3 fails (both with the dummy
`d` reference and with the restored one). -/
def togPartial : Cartesian ℚ :=
  ⟨[⟨0, .elem 1, ⟨1, 0, 0⟩⟩, ⟨1, .elem 1, ⟨2, 0, 0⟩⟩,
    ⟨2, .elem 1, ⟨3, 0, 0⟩⟩, ⟨5, .X, ⟨4, 0, 0⟩⟩]⟩

/-- The singularity raised by converting `zTog` itself (atom 3, dummy `d`). -/
def eTog : InvalidRef ℚ := ⟨3, 2, 1, 5, togPartial⟩

/-- The singularity raised after the toggle restores atom 3's original `d`. -/
def eTogR : InvalidRef ℚ := ⟨3, 2, 1, 0, togPartial⟩

theorem rowK_togFail :
    rowKernel ratOps (2, 1, 3) (1, radians ratOps 90, radians ratOps 0)
      [⟨1, 0, 0⟩, ⟨2, 0, 0⟩, ⟨3, 0, 0⟩, ⟨4, 0, 0⟩] = none := by
  have e : rowKernel ratOps (2, 1, 3) (1, radians ratOps 90, radians ratOps 0)
        [⟨1, 0, 0⟩, ⟨2, 0, 0⟩, ⟨3, 0, 0⟩, ⟨4, 0, 0⟩]
      = jitCalcSinglePosition ratOps ⟨3, 0, 0⟩ ⟨2, 0, 0⟩ ⟨4, 0, 0⟩ 1
          (radians ratOps 90) (radians ratOps 0) := rfl
  rw [e]
  exact singlePos_N1_zero ratOps _ _ _
    (by norm_num [vecIsclose, isclose, ratOps, ratEps])
    (by norm_num [isclose, radians, ratOps, npPi, ratEps, abs_of_pos, abs_of_neg])
    (by norm_num [isclose, radians, ratOps, npPi, ratEps, abs_of_pos, abs_of_neg])
    (by norm_num [vecIsclose, isclose, Vec3.cross, ratOps, ratEps])

theorem rowK_togRFail :
    rowKernel ratOps (2, 1, 0) (1, radians ratOps 90, radians ratOps 0)
      [⟨1, 0, 0⟩, ⟨2, 0, 0⟩, ⟨3, 0, 0⟩, ⟨4, 0, 0⟩] = none := by
  have e : rowKernel ratOps (2, 1, 0) (1, radians ratOps 90, radians ratOps 0)
        [⟨1, 0, 0⟩, ⟨2, 0, 0⟩, ⟨3, 0, 0⟩, ⟨4, 0, 0⟩]
      = jitCalcSinglePosition ratOps ⟨3, 0, 0⟩ ⟨2, 0, 0⟩ ⟨1, 0, 0⟩ 1
          (radians ratOps 90) (radians ratOps 0) := rfl
  rw [e]
  exact singlePos_N1_zero ratOps _ _ _
    (by norm_num [vecIsclose, isclose, ratOps, ratEps])
    (by norm_num [isclose, radians, ratOps, npPi, ratEps, abs_of_pos, abs_of_neg])
    (by norm_num [isclose, radians, ratOps, npPi, ratEps, abs_of_pos, abs_of_neg])
    (by norm_num [vecIsclose, isclose, Vec3.cross, ratOps, ratEps])

theorem zTog_run :
    jitCalcPositions ratOps (ctableAfter zTog) (valuesOf ratOps zTog)
      = (some 4, [⟨1, 0, 0⟩, ⟨2, 0, 0⟩, ⟨3, 0, 0⟩, ⟨4, 0, 0⟩]) := by
  have hzip : (ctableAfter zTog).zip (valuesOf ratOps zTog)
      = [((-1, -2, -4), (1, radians ratOps 0, radians ratOps 0)),
         ((-1, -2, -4), (2, radians ratOps 0, radians ratOps 0)),
         ((-1, -2, -4), (3, radians ratOps 0, radians ratOps 0)),
         ((-1, -2, -4), (4, radians ratOps 0, radians ratOps 0)),
         ((2, 1, 3), (1, radians ratOps 90, radians ratOps 0))] := rfl
  rw [jitCalcPositions, hzip,
    go_cons_ok ratOps _ (congrFun (rowK_sentinel 1) []),
    show ([] : List (Vec3 ℚ)) ++ [⟨1, 0, 0⟩] = [⟨1, 0, 0⟩] from rfl,
    go_cons_ok ratOps _ (congrFun (rowK_sentinel 2) [⟨1, 0, 0⟩]),
    show ([⟨1, 0, 0⟩] : List (Vec3 ℚ)) ++ [⟨2, 0, 0⟩] = [⟨1, 0, 0⟩, ⟨2, 0, 0⟩] from rfl,
    go_cons_ok ratOps _ (congrFun (rowK_sentinel 3) [⟨1, 0, 0⟩, ⟨2, 0, 0⟩]),
    show ([⟨1, 0, 0⟩, ⟨2, 0, 0⟩] : List (Vec3 ℚ)) ++ [⟨3, 0, 0⟩]
      = [⟨1, 0, 0⟩, ⟨2, 0, 0⟩, ⟨3, 0, 0⟩] from rfl,
    go_cons_ok ratOps _ (congrFun (rowK_sentinel 4) [⟨1, 0, 0⟩, ⟨2, 0, 0⟩, ⟨3, 0, 0⟩]),
    show ([⟨1, 0, 0⟩, ⟨2, 0, 0⟩, ⟨3, 0, 0⟩] : List (Vec3 ℚ)) ++ [⟨4, 0, 0⟩]
      = [⟨1, 0, 0⟩, ⟨2, 0, 0⟩, ⟨3, 0, 0⟩, ⟨4, 0, 0⟩] from rfl,
    go_cons_err ratOps _ rowK_togFail]
  rfl

theorem zTogR_run :
    jitCalcPositions ratOps (ctableAfter { zTog with rows := removeRestoreRows zTog [3] })
      (valuesOf ratOps { zTog with rows := removeRestoreRows zTog [3] })
      = (some 4, [⟨1, 0, 0⟩, ⟨2, 0, 0⟩, ⟨3, 0, 0⟩, ⟨4, 0, 0⟩]) := by
  have hzip : (ctableAfter { zTog with rows := removeRestoreRows zTog [3] }).zip
        (valuesOf ratOps { zTog with rows := removeRestoreRows zTog [3] })
      = [((-1, -2, -4), (1, radians ratOps 0, radians ratOps 0)),
         ((-1, -2, -4), (2, radians ratOps 0, radians ratOps 0)),
         ((-1, -2, -4), (3, radians ratOps 0, radians ratOps 0)),
         ((-1, -2, -4), (4, radians ratOps 0, radians ratOps 0)),
         ((2, 1, 0), (1, radians ratOps 90, radians ratOps 0))] := rfl
  rw [jitCalcPositions, hzip,
    go_cons_ok ratOps _ (congrFun (rowK_sentinel 1) []),
    show ([] : List (Vec3 ℚ)) ++ [⟨1, 0, 0⟩] = [⟨1, 0, 0⟩] from rfl,
    go_cons_ok ratOps _ (congrFun (rowK_sentinel 2) [⟨1, 0, 0⟩]),
    show ([⟨1, 0, 0⟩] : List (Vec3 ℚ)) ++ [⟨2, 0, 0⟩] = [⟨1, 0, 0⟩, ⟨2, 0, 0⟩] from rfl,
    go_cons_ok ratOps _ (congrFun (rowK_sentinel 3) [⟨1, 0, 0⟩, ⟨2, 0, 0⟩]),
    show ([⟨1, 0, 0⟩, ⟨2, 0, 0⟩] : List (Vec3 ℚ)) ++ [⟨3, 0, 0⟩]
      = [⟨1, 0, 0⟩, ⟨2, 0, 0⟩, ⟨3, 0, 0⟩] from rfl,
    go_cons_ok ratOps _ (congrFun (rowK_sentinel 4) [⟨1, 0, 0⟩, ⟨2, 0, 0⟩, ⟨3, 0, 0⟩]),
    show ([⟨1, 0, 0⟩, ⟨2, 0, 0⟩, ⟨3, 0, 0⟩] : List (Vec3 ℚ)) ++ [⟨4, 0, 0⟩]
      = [⟨1, 0, 0⟩, ⟨2, 0, 0⟩, ⟨3, 0, 0⟩, ⟨4, 0, 0⟩] from rfl,
    go_cons_err ratOps _ rowK_togRFail]
  rfl

theorem zTog_err : getCartesian ratOps zTog = .error eTog := by
  have h := (C2_sequential_conversion ratOps zTog).1 4
    [⟨1, 0, 0⟩, ⟨2, 0, 0⟩, ⟨3, 0, 0⟩, ⟨4, 0, 0⟩] zTog_run
  exact h.1

theorem zTogR_err :
    getCartesian ratOps { zTog with rows := removeRestoreRows zTog [3] }
      = .error eTogR := by
  have h := (C2_sequential_conversion ratOps
      { zTog with rows := removeRestoreRows zTog [3] }).1 4
    [⟨1, 0, 0⟩, ⟨2, 0, 0⟩, ⟨3, 0, 0⟩, ⟨4, 0, 0⟩] zTogR_run
  exact h.1

/-- Witness for C8: at the mid-recovery state `zTog` (atom 3 already in the
dummy map) the toggle performs the removal, whose internal failure
propagates; at the fresh state `zColl` (atom 3 not in the map) the toggle
performs an insertion that adds exactly one row, with the dummy id
`maxId + 1 = 4`. -/
theorem C8_witness :
    toggleStep ratOps zTog eTog = removeDummiesCore ratOps zTog [3]
      ∧ insertDummyZmat ratOps 8 zTog eTog = .failed eTogR
      ∧ toggleStep ratOps zColl ⟨3, 2, 1, 0, togPartial⟩ =
          .ok ((insertDummyOp ratOps zColl 3
              (insertDummyCart ratOps zColl ⟨3, 2, 1, 0, togPartial⟩).1
              (insertDummyCart ratOps zColl ⟨3, 2, 1, 0, togPartial⟩).2).1,
            [.dummyInserted 3
              (insertDummyCart ratOps zColl ⟨3, 2, 1, 0, togPartial⟩).2])
      ∧ (insertDummyOp ratOps zColl 3
          (insertDummyCart ratOps zColl ⟨3, 2, 1, 0, togPartial⟩).1
          (insertDummyCart ratOps zColl ⟨3, 2, 1, 0, togPartial⟩).2).1.rows.length = 5
      ∧ (insertDummyCart ratOps zColl ⟨3, 2, 1, 0, togPartial⟩).2 = 4 := by
  have h1 := (C8_toggle_rule ratOps 7 zTog eTog).1 (by rfl)
  have h2 := (C8_toggle_rule ratOps 7 zColl ⟨3, 2, 1, 0, togPartial⟩).2 (by rfl)
  refine ⟨h1.1, ?_, h2.1, h2.2.1, h2.2.2.1⟩
  exact h1.2.1 eTogR (removeDummiesCore_err ratOps (by rfl) zTogR_err)

/-! ### Claim C5 (corrected): no termination or progress guarantee -/

/-- C5 (amended): the recovery loop provides no strict-progress guarantee
and no distinct unrecoverable-geometry outcome.  When the toggle removal is
selected and the re-conversion of the restored Z-matrix fails — in
particular when it fails at the very atom being recovered, so the number of
unresolved singularities has not decreased — the recovery run surfaces that
ordinary `InvalidReference` unchanged, the same payload any conversion
failure carries. -/
theorem C5_no_progress_guarantee (n : NumOps K) (fuel : Nat) (z : Zmat K)
    (e e' : InvalidRef K)
    (hSome : (z.lookupDummy e.i).isSome = true)
    (hfail : getCartesian n { z with rows := removeRestoreRows z [e.i] }
      = .error e') :
    insertDummyZmat n (fuel + 1) z e = .failed e' := by
  rw [insertDummyZmat, toggleStep, if_pos hSome,
    removeDummiesCore_err n (by rfl) hfail]

/-- Counterexample to C5 as stated: converting `zTog` fails at atom 3;
invoking the recovery loop on that failure performs one toggle iteration
(removal) after which atom 3 is still the failing atom — the count of
unresolved singularities has not decreased — and the loop reports the
ordinary `InvalidReference` singularity payload, not any distinct
unrecoverable-geometry condition. -/
theorem C5_counterexample :
    getCartesian ratOps zTog = .error eTog
      ∧ eTog.i = 3
      ∧ insertDummyZmat ratOps 9 zTog eTog = .failed eTogR
      ∧ eTogR.i = 3
      ∧ eTogR = ⟨3, 2, 1, 0, togPartial⟩ := by
  refine ⟨zTog_err, rfl, ?_, rfl, rfl⟩
  rw [insertDummyZmat, toggleStep, if_pos (by rfl),
    show eTog.i = (3 : Int) from rfl,
    removeDummiesCore_err ratOps (by rfl) zTogR_err]

/-- Witness for the amended C5 at the concrete mid-recovery state. -/
theorem C5_witness :
    insertDummyZmat ratOps 6 zTog eTog = .failed eTogR :=
  C5_no_progress_guarantee ratOps 5 zTog eTog eTogR (by rfl) zTogR_err

/-! ### Claim C9: removal semantics and the no-op case -/

theorem countP_split {α : Type} (l : List α) (p : α → Bool) :
    l.countP p + l.countP (fun a => !(p a)) = l.length := by
  induction l with
  | nil => rfl
  | cons a l ih =>
    by_cases h : p a = true
    · simp [List.countP_cons, h]
      omega
    · simp only [List.countP_cons, h, Bool.not_eq_true] at *
      simp [h]
      omega

theorem countP_id_setD (q : Int → Bool) (rows : List (ZRow K)) (i d : Int) :
    (setD rows i d).countP (fun r => q r.id) = rows.countP (fun r => q r.id) := by
  rw [setD, List.countP_map]
  congr 1
  funext r
  simp only [Function.comp_apply]
  by_cases h : r.id = i
  · rw [if_pos h]
  · rw [if_neg h]

theorem countP_id_removeRestoreRows (q : Int → Bool) (z : Zmat K)
    (toRemove : List Int) :
    (removeRestoreRows z toRemove).countP (fun r => q r.id)
      = z.rows.countP (fun r => q r.id) := by
  rw [removeRestoreRows]
  generalize z.rows = rows
  induction toRemove generalizing rows with
  | nil => rfl
  | cons k ks ih => rw [List.foldl_cons, ih, countP_id_setD]

theorem countP_id_removeRecomputeRows (q : Int → Bool) (cart : Cartesian K)
    (toRemove : List Int) (rows : List (ZRow K)) :
    (removeRecomputeRows n cart toRemove rows).countP (fun r => q r.id)
      = rows.countP (fun r => q r.id) := by
  rw [removeRecomputeRows, List.countP_map]
  congr 1
  funext r
  simp only [Function.comp_apply]
  by_cases h : toRemove.contains r.id
  · rw [if_pos h]
  · rw [if_neg h]

/-- C9: against a fully resolved Cartesian, `_has_removable_dummies`
reports exactly the dummy-map entries whose original-`d` cross product is
no longer numerically zero; removing a nonempty list restores each listed
atom's `d` to its recorded original, recomputes its values from the final
positions against the restored construction row, drops the dummy rows
(restoring the original atom count when each dummy id occurs once), clears
the dummy-map entries and emits one removal notice; and removal on a
Z-matrix with no removable dummies returns it unchanged with no notice. -/
theorem C9_removal_semantics (n : NumOps K) (z : Zmat K) :
    (∀ xyz, getCartesian n z = .ok xyz →
      hasRemovableDummies n z = .ok (z.hasDummies.filter (removablePred n z xyz))) ∧
    (∀ toRemove z₁ ns, toRemove.isEmpty = false →
      removeDummiesCore n z toRemove = .ok (z₁, ns) →
      ns = [.dummiesRemoved toRemove] ∧
      z₁.hasDummies = z.hasDummies.filter (fun en => decide (en.i ∉ toRemove)) ∧
      (∀ r ∈ z₁.rows, r.id ∉ removeDummyIds z toRemove) ∧
      (∀ r ∈ z₁.rows, r.id ∈ toRemove → r.d = (dummyEntryOf z r.id).actualD) ∧
      (∃ cart,
        getCartesian n { z with rows := removeRestoreRows z toRemove } = .ok cart ∧
        ∀ r ∈ z₁.rows, r.id ∈ toRemove →
          r.bond = (calculateZmatValues n cart (r.id, r.b, r.a, r.d)).1 ∧
          r.angle = (calculateZmatValues n cart (r.id, r.b, r.a, r.d)).2.1 ∧
          r.dihedral = (calculateZmatValues n cart (r.id, r.b, r.a, r.d)).2.2) ∧
      ((z.rows.filter fun r => decide (r.id ∈ removeDummyIds z toRemove)).length
          = toRemove.length →
        z₁.rows.length + toRemove.length = z.rows.length)) ∧
    (∀ xyz, getCartesian n z = .ok xyz →
      z.hasDummies.filter (removablePred n z xyz) = [] →
      removeDummies n z none = .ok (z, [])) := by
  refine ⟨?_, ?_, ?_⟩
  · intro xyz hconv
    rw [hasRemovableDummies, hconv]
  · intro toRemove z₁ ns hne hok
    obtain ⟨cart, hconv, hrows, hdum, -, hns⟩ :=
      removeDummiesCore_ok_char n hne hok
    refine ⟨hns, hdum, ?_, ?_, ⟨cart, hconv, ?_⟩, ?_⟩
    · intro r hr
      rw [hrows] at hr
      have := List.of_mem_filter hr
      simpa using this
    · intro r hr hid
      rw [hrows] at hr
      obtain ⟨r₀, h₀, hid0, -, -, hd0, -⟩ :=
        removeRecomputeRows_mem n (List.mem_of_mem_filter hr)
      have hd1 : r₀.d = (dummyEntryOf z r₀.id).actualD :=
        removeRestoreRows_mem_d h₀ (by rw [← hid0]; exact hid)
      rw [hd0, hd1, ← hid0]
    · intro r hr hid
      rw [hrows] at hr
      obtain ⟨r₀, -, -, -, -, -, hvals⟩ :=
        removeRecomputeRows_mem n (List.mem_of_mem_filter hr)
      exact hvals (List.elem_eq_true_of_mem hid)
    · intro hOnce
      have h1 : z₁.rows.length
          = z.rows.countP (fun r => decide (r.id ∉ removeDummyIds z toRemove)) := by
        rw [hrows, ← List.countP_eq_length_filter,
          countP_id_removeRecomputeRows n
            (fun i => decide (i ∉ removeDummyIds z toRemove)) cart toRemove,
          countP_id_removeRestoreRows
            (fun i => decide (i ∉ removeDummyIds z toRemove)) z toRemove]
      have h2 : z.rows.countP (fun r => decide (r.id ∉ removeDummyIds z toRemove))
            + z.rows.countP (fun r => decide (r.id ∈ removeDummyIds z toRemove))
          = z.rows.length := by
        have h3 := countP_split z.rows
          (fun r => decide (r.id ∉ removeDummyIds z toRemove))
        have h4 : (fun r : ZRow K => !(decide (r.id ∉ removeDummyIds z toRemove)))
            = fun r : ZRow K => decide (r.id ∈ removeDummyIds z toRemove) := by
          funext r
          by_cases h : r.id ∈ removeDummyIds z toRemove <;> simp [h]
        rwa [h4] at h3
      rw [← List.countP_eq_length_filter] at hOnce
      omega
  · intro xyz hconv hempty
    have hA : hasRemovableDummies n z = .ok [] := by
      rw [hasRemovableDummies, hconv]
      exact congrArg Except.ok hempty
    have h2 : removeDummies n z none = removeDummiesCore n z [] := by
      unfold removeDummies
      rw [hA]
      rfl
    rw [h2]
    exact removeDummiesCore_nil n z

/-- A state with a removable dummy: atoms 0 and 1 on the x-axis, atom 2 off
the axis, a dummy atom 5 recorded for atom 3 (original `d` reference 2),
and atom 3 currently pointing its `d` at the dummy.  Against the resolved
Cartesian, atom 3's original references are no longer collinear. -/
def zRem : Zmat ℚ :=
  ⟨[⟨0, .elem 1, -1, -2, -4, 1, 0, 0⟩,
    ⟨1, .elem 1, -1, -2, -4, 2, 0, 0⟩,
    ⟨2, .elem 1, -1, -3, -4, 1, 0, 0⟩,
    ⟨5, .X, -1, -2, -4, 3, 0, 0⟩,
    ⟨3, .elem 1, 1, 0, 5, 1, 0, 0⟩],
   [⟨3, 5, 2⟩], ⟨[]⟩⟩

/-- The resolved Cartesian of `zRem` (and of its `d`-restored variant,
whose angle-0 placements do not read the dihedral reference). -/
def xyzRem : Cartesian ℚ :=
  ⟨[⟨0, .elem 1, ⟨1, 0, 0⟩⟩, ⟨1, .elem 1, ⟨2, 0, 0⟩⟩, ⟨2, .elem 1, ⟨0, 1, 0⟩⟩,
    ⟨5, .X, ⟨3, 0, 0⟩⟩, ⟨3, .elem 1, ⟨1, 0, 0⟩⟩]⟩

/-- The state after the dummy for atom 3 is removed: `d` restored to 2,
values recomputed from the final positions, dummy row 5 dropped, dummy map
cleared. -/
def zRemAfter : Zmat ℚ :=
  ⟨[⟨0, .elem 1, -1, -2, -4, 1, 0, 0⟩,
    ⟨1, .elem 1, -1, -2, -4, 2, 0, 0⟩,
    ⟨2, .elem 1, -1, -3, -4, 1, 0, 0⟩,
    ⟨3, .elem 1, 1, 0, 2,
      (calculateZmatValues ratOps xyzRem (3, 1, 0, 2)).1,
      (calculateZmatValues ratOps xyzRem (3, 1, 0, 2)).2.1,
      (calculateZmatValues ratOps xyzRem (3, 1, 0, 2)).2.2⟩],
   [], ⟨[]⟩⟩

theorem rowK_offAxis :
    rowKernel ratOps (-1, -3, -4) ((1 : ℚ), radians ratOps 0, radians ratOps 0)
        = fun _ => some ⟨0, 1, 0⟩ := by
  funext acc
  have e : rowKernel ratOps (-1, -3, -4) ((1 : ℚ), radians ratOps 0, radians ratOps 0) acc
      = jitCalcSinglePosition ratOps ⟨0, 0, 0⟩ ⟨0, 1, 0⟩ ⟨0, 0, 1⟩ 1
          (radians ratOps 0) (radians ratOps 0) := rfl
  rw [e, singlePos_zero ratOps _ _
    (by norm_num [vecIsclose, isclose, ratOps, ratEps])
    (by norm_num [isclose, radians, ratOps, npPi, ratEps, abs_of_pos, abs_of_neg])
    (by norm_num [isclose, radians, ratOps, npPi, ratEps])]
  norm_num [normalize, vnorm, Vec3.dot, ratSqrt, isqrt, ratOps]

theorem rowK_backStep (jd : Int) :
    rowKernel ratOps (1, 0, jd) ((1 : ℚ), radians ratOps 0, radians ratOps 0)
      [⟨1, 0, 0⟩, ⟨2, 0, 0⟩, ⟨0, 1, 0⟩, ⟨3, 0, 0⟩] = some ⟨1, 0, 0⟩ := by
  have e : rowKernel ratOps (1, 0, jd) ((1 : ℚ), radians ratOps 0, radians ratOps 0)
        [⟨1, 0, 0⟩, ⟨2, 0, 0⟩, ⟨0, 1, 0⟩, ⟨3, 0, 0⟩]
      = jitCalcSinglePosition ratOps ⟨2, 0, 0⟩ ⟨1, 0, 0⟩
          (refPos [⟨1, 0, 0⟩, ⟨2, 0, 0⟩, ⟨0, 1, 0⟩, ⟨3, 0, 0⟩] jd) 1
          (radians ratOps 0) (radians ratOps 0) := rfl
  rw [e, singlePos_zero ratOps _ _
    (by norm_num [vecIsclose, isclose, ratOps, ratEps])
    (by norm_num [isclose, radians, ratOps, npPi, ratEps, abs_of_pos, abs_of_neg])
    (by norm_num [isclose, radians, ratOps, npPi, ratEps])]
  norm_num [normalize, vnorm, Vec3.dot, ratSqrt, isqrt, ratOps]

theorem zRem_run :
    jitCalcPositions ratOps (ctableAfter zRem) (valuesOf ratOps zRem)
      = (none, [⟨1, 0, 0⟩, ⟨2, 0, 0⟩, ⟨0, 1, 0⟩, ⟨3, 0, 0⟩, ⟨1, 0, 0⟩]) := by
  have hzip : (ctableAfter zRem).zip (valuesOf ratOps zRem)
      = [((-1, -2, -4), (1, radians ratOps 0, radians ratOps 0)),
         ((-1, -2, -4), (2, radians ratOps 0, radians ratOps 0)),
         ((-1, -3, -4), (1, radians ratOps 0, radians ratOps 0)),
         ((-1, -2, -4), (3, radians ratOps 0, radians ratOps 0)),
         ((1, 0, 3), (1, radians ratOps 0, radians ratOps 0))] := rfl
  rw [jitCalcPositions, hzip,
    go_cons_ok ratOps _ (congrFun (rowK_sentinel 1) []),
    show ([] : List (Vec3 ℚ)) ++ [⟨1, 0, 0⟩] = [⟨1, 0, 0⟩] from rfl,
    go_cons_ok ratOps _ (congrFun (rowK_sentinel 2) [⟨1, 0, 0⟩]),
    show ([⟨1, 0, 0⟩] : List (Vec3 ℚ)) ++ [⟨2, 0, 0⟩] = [⟨1, 0, 0⟩, ⟨2, 0, 0⟩] from rfl,
    go_cons_ok ratOps _ (congrFun rowK_offAxis [⟨1, 0, 0⟩, ⟨2, 0, 0⟩]),
    show ([⟨1, 0, 0⟩, ⟨2, 0, 0⟩] : List (Vec3 ℚ)) ++ [⟨0, 1, 0⟩]
      = [⟨1, 0, 0⟩, ⟨2, 0, 0⟩, ⟨0, 1, 0⟩] from rfl,
    go_cons_ok ratOps _ (congrFun (rowK_sentinel 3) [⟨1, 0, 0⟩, ⟨2, 0, 0⟩, ⟨0, 1, 0⟩]),
    show ([⟨1, 0, 0⟩, ⟨2, 0, 0⟩, ⟨0, 1, 0⟩] : List (Vec3 ℚ)) ++ [⟨3, 0, 0⟩]
      = [⟨1, 0, 0⟩, ⟨2, 0, 0⟩, ⟨0, 1, 0⟩, ⟨3, 0, 0⟩] from rfl,
    go_cons_ok ratOps _ (rowK_backStep 3),
    show ([⟨1, 0, 0⟩, ⟨2, 0, 0⟩, ⟨0, 1, 0⟩, ⟨3, 0, 0⟩] : List (Vec3 ℚ)) ++ [⟨1, 0, 0⟩]
      = [⟨1, 0, 0⟩, ⟨2, 0, 0⟩, ⟨0, 1, 0⟩, ⟨3, 0, 0⟩, ⟨1, 0, 0⟩] from rfl,
    go_nil]

theorem zRemR_run :
    jitCalcPositions ratOps
      (ctableAfter { zRem with rows := removeRestoreRows zRem [3] })
      (valuesOf ratOps { zRem with rows := removeRestoreRows zRem [3] })
      = (none, [⟨1, 0, 0⟩, ⟨2, 0, 0⟩, ⟨0, 1, 0⟩, ⟨3, 0, 0⟩, ⟨1, 0, 0⟩]) := by
  have hzip : (ctableAfter { zRem with rows := removeRestoreRows zRem [3] }).zip
        (valuesOf ratOps { zRem with rows := removeRestoreRows zRem [3] })
      = [((-1, -2, -4), (1, radians ratOps 0, radians ratOps 0)),
         ((-1, -2, -4), (2, radians ratOps 0, radians ratOps 0)),
         ((-1, -3, -4), (1, radians ratOps 0, radians ratOps 0)),
         ((-1, -2, -4), (3, radians ratOps 0, radians ratOps 0)),
         ((1, 0, 2), (1, radians ratOps 0, radians ratOps 0))] := rfl
  rw [jitCalcPositions, hzip,
    go_cons_ok ratOps _ (congrFun (rowK_sentinel 1) []),
    show ([] : List (Vec3 ℚ)) ++ [⟨1, 0, 0⟩] = [⟨1, 0, 0⟩] from rfl,
    go_cons_ok ratOps _ (congrFun (rowK_sentinel 2) [⟨1, 0, 0⟩]),
    show ([⟨1, 0, 0⟩] : List (Vec3 ℚ)) ++ [⟨2, 0, 0⟩] = [⟨1, 0, 0⟩, ⟨2, 0, 0⟩] from rfl,
    go_cons_ok ratOps _ (congrFun rowK_offAxis [⟨1, 0, 0⟩, ⟨2, 0, 0⟩]),
    show ([⟨1, 0, 0⟩, ⟨2, 0, 0⟩] : List (Vec3 ℚ)) ++ [⟨0, 1, 0⟩]
      = [⟨1, 0, 0⟩, ⟨2, 0, 0⟩, ⟨0, 1, 0⟩] from rfl,
    go_cons_ok ratOps _ (congrFun (rowK_sentinel 3) [⟨1, 0, 0⟩, ⟨2, 0, 0⟩, ⟨0, 1, 0⟩]),
    show ([⟨1, 0, 0⟩, ⟨2, 0, 0⟩, ⟨0, 1, 0⟩] : List (Vec3 ℚ)) ++ [⟨3, 0, 0⟩]
      = [⟨1, 0, 0⟩, ⟨2, 0, 0⟩, ⟨0, 1, 0⟩, ⟨3, 0, 0⟩] from rfl,
    go_cons_ok ratOps _ (rowK_backStep 2),
    show ([⟨1, 0, 0⟩, ⟨2, 0, 0⟩, ⟨0, 1, 0⟩, ⟨3, 0, 0⟩] : List (Vec3 ℚ)) ++ [⟨1, 0, 0⟩]
      = [⟨1, 0, 0⟩, ⟨2, 0, 0⟩, ⟨0, 1, 0⟩, ⟨3, 0, 0⟩, ⟨1, 0, 0⟩] from rfl,
    go_nil]

theorem zRem_conv : getCartesian ratOps zRem = .ok xyzRem := by
  have h := (C2_sequential_conversion ratOps zRem).2
    [⟨1, 0, 0⟩, ⟨2, 0, 0⟩, ⟨0, 1, 0⟩, ⟨3, 0, 0⟩, ⟨1, 0, 0⟩] zRem_run
  exact h.1

theorem zRemR_conv :
    getCartesian ratOps { zRem with rows := removeRestoreRows zRem [3] }
      = .ok xyzRem := by
  have h := (C2_sequential_conversion ratOps
      { zRem with rows := removeRestoreRows zRem [3] }).2
    [⟨1, 0, 0⟩, ⟨2, 0, 0⟩, ⟨0, 1, 0⟩, ⟨3, 0, 0⟩, ⟨1, 0, 0⟩] zRemR_run
  exact h.1

/-- Witness for C9 at the concrete state `zRem`: the removability check
reports exactly the entry for atom 3, the removal produces the expected
state (d restored to 2, values recomputed from the final positions, dummy
row dropped shrinking the frame from 5 to 4 rows, map cleared) with one
removal notice, and removal on a dummy-free molecule is a no-op with no
notice. -/
theorem C9_witness :
    hasRemovableDummies ratOps zRem = .ok [⟨3, 5, 2⟩]
      ∧ removeDummies ratOps zRem none = .ok (zRemAfter, [.dummiesRemoved [3]])
      ∧ zRemAfter.rows.length + 1 = zRem.rows.length
      ∧ zRemAfter.hasDummies = []
      ∧ removeDummies ratOps zLine none = .ok (zLine, []) := by
  have hpred : removablePred ratOps zRem xyzRem ⟨3, 5, 2⟩ = true := by
    have e : removablePred ratOps zRem xyzRem ⟨3, 5, 2⟩
        = !(vecIsclose ratOps
            (cross ((⟨1, 0, 0⟩ : Vec3 ℚ) - ⟨2, 0, 0⟩)
              ((⟨0, 1, 0⟩ : Vec3 ℚ) - ⟨1, 0, 0⟩)) 0) := rfl
    rw [e]
    norm_num [vecIsclose, isclose, Vec3.cross, ratOps, ratEps]
  have hA : hasRemovableDummies ratOps zRem = .ok [⟨3, 5, 2⟩] := by
    rw [(C9_removal_semantics ratOps zRem).1 xyzRem zRem_conv]
    have hfil : zRem.hasDummies.filter (removablePred ratOps zRem xyzRem)
        = [⟨3, 5, 2⟩] := by
      show List.filter (removablePred ratOps zRem xyzRem) [⟨3, 5, 2⟩] = [⟨3, 5, 2⟩]
      rw [List.filter_cons, hpred]
      rfl
    rw [hfil]
  have hcore : removeDummiesCore ratOps zRem [3]
      = .ok (zRemAfter, [.dummiesRemoved [3]]) := by
    rw [removeDummiesCore, if_neg (by simp), zRemR_conv]
    rfl
  have hrm : removeDummies ratOps zRem none
      = .ok (zRemAfter, [.dummiesRemoved [3]]) := by
    have h2 : removeDummies ratOps zRem none = removeDummiesCore ratOps zRem [3] := by
      unfold removeDummies
      rw [hA]
      rfl
    rw [h2, hcore]
  have hlen : zRemAfter.rows.length + 1 = zRem.rows.length := by
    have hB := ((C9_removal_semantics ratOps zRem).2.1 [3] zRemAfter
      [.dummiesRemoved [3]] (by rfl) hcore).2.2.2.2.2
    exact hB (by rfl)
  have hline : removeDummies ratOps zLine none = .ok (zLine, []) := by
    have h := (C2_sequential_conversion ratOps zLine).2
      [⟨1, 0, 0⟩, ⟨2, 0, 0⟩, ⟨3, 0, 0⟩] zLine_run
    exact (C9_removal_semantics ratOps zLine).2.2 _ h.1 rfl
  exact ⟨hA, hrm, hlen, rfl, hline⟩

/-! ### Claim C10: what a dummy insertion does -/

theorem dot_cross_left (u v : Vec3 K) : dot (cross u v) u = 0 := by
  cases u
  cases v
  simp only [Vec3.dot, Vec3.cross]
  ring

theorem dot_cross_right (u v : Vec3 K) : dot (cross u v) v = 0 := by
  cases u
  cases v
  simp only [Vec3.dot, Vec3.cross]
  ring

theorem dot_smul_left (c : K) (u v : Vec3 K) : dot (c • u) v = c * dot u v := by
  cases u
  cases v
  simp only [Vec3.dot, Vec3.smul_def]
  ring

theorem dot_self_pos {w : Vec3 K} (hw : w ≠ 0) : 0 < dot w w := by
  rcases w with ⟨a, b, c⟩
  have h2 : ¬(a = 0 ∧ b = 0 ∧ c = 0) := by
    intro ⟨h3, h4, h5⟩
    exact hw (by simp [h3, h4, h5])
  simp only [Vec3.dot]
  rcases lt_or_le 0 (a * a + b * b + c * c) with h | h
  · exact h
  · exfalso
    have ha : a = 0 := by nlinarith [sq_nonneg a, sq_nonneg b, sq_nonneg c]
    have hb : b = 0 := by nlinarith [sq_nonneg a, sq_nonneg b, sq_nonneg c]
    have hc : c = 0 := by nlinarith [sq_nonneg a, sq_nonneg b, sq_nonneg c]
    exact h2 ⟨ha, hb, hc⟩

/-- Over the reals, normalizing a nonzero vector yields a unit vector. -/
theorem normalize_unit {w : Vec3 ℝ} (hw : w ≠ 0) :
    dot (normalize realOps w) (normalize realOps w) = 1 := by
  have hpos := dot_self_pos hw
  have hs : vnorm realOps w = Real.sqrt (dot w w) := rfl
  have hspos : 0 < vnorm realOps w := by
    rw [hs]
    exact Real.sqrt_pos.mpr hpos
  have hcomm : dot w ((vnorm realOps w)⁻¹ • w) = (vnorm realOps w)⁻¹ * dot w w := by
    rcases w with ⟨a, b, c⟩
    simp only [Vec3.dot, Vec3.smul_def]
    ring
  have hv : vnorm realOps w * vnorm realOps w = dot w w := by
    rw [hs]
    exact Real.mul_self_sqrt (le_of_lt hpos)
  have hvne : vnorm realOps w ≠ 0 := ne_of_gt hspos
  rw [normalize, dot_smul_left, hcomm, ← hv]
  field_simp

theorem maxId_ge_mem (z : Zmat K) {r : ZRow K} (hr : r ∈ z.rows) :
    r.id ≤ z.maxId := by
  rw [Zmat.maxId]
  have key : ∀ (l : List (ZRow K)) (seed : Int),
      (∀ x ∈ l, x.id ≤ l.foldl (fun m r => max m r.id) seed) ∧
      seed ≤ l.foldl (fun m r => max m r.id) seed := by
    intro l
    induction l with
    | nil => exact fun seed => ⟨by simp, le_refl _⟩
    | cons a l ih =>
      intro seed
      obtain ⟨h1, h2⟩ := ih (max seed a.id)
      refine ⟨?_, ?_⟩
      · intro x hx
        rcases List.mem_cons.mp hx with h | h
        · subst h
          exact le_trans (le_max_right seed x.id) h2
        · exact h1 x h
      · exact le_trans (le_max_left seed a.id) h2
  exact (key z.rows 0).1 r hr

theorem findPos_getD {ids : List Int} {v : Int} {k : Nat}
    (h : findPos ids v = some k) : ids.getD k 0 = v := by
  induction ids generalizing k with
  | nil => exact absurd h (by simp [findPos])
  | cons i rest ih =>
    rw [findPos] at h
    by_cases hi : i = v
    · rw [if_pos hi] at h
      injection h with h2
      rw [← h2, List.getD_cons_zero]
      exact hi
    · rw [if_neg hi] at h
      rcases hfp : findPos rest v with _ | k'
      · rw [hfp] at h
        exact absurd h (by simp)
      · rw [hfp] at h
        have h2 : k' + 1 = k := by simpa using h
        rw [← h2, List.getD_cons_succ]
        exact ih hfp

theorem insertRowAt_getD_self (rows : List (ZRow K)) (pos : Nat) (row : ZRow K)
    (hpos : pos ≤ rows.length) :
    (insertRowAt rows pos row).getD pos zrow0 = row := by
  rw [insertRowAt, List.append_assoc,
    List.getD_append_right _ _ _ _ (by rw [List.length_take]; omega)]
  simp [List.length_take, Nat.min_eq_left hpos]

theorem insertRowAt_getD_next (rows : List (ZRow K)) (pos : Nat) (row : ZRow K)
    (hpos : pos < rows.length) :
    (insertRowAt rows pos row).getD (pos + 1) zrow0 = rows.getD pos zrow0 := by
  rw [insertRowAt, List.append_assoc,
    List.getD_append_right _ _ _ _ (by rw [List.length_take]; omega)]
  have h1 : pos + 1 - (rows.take pos).length = 1 := by
    simp [List.length_take, Nat.min_eq_left (le_of_lt hpos)]
  rw [h1, List.singleton_append, List.getD_cons_succ]
  rw [List.getD_eq_getElem _ _ (by simp [List.length_drop]; omega),
    List.getD_eq_getElem _ _ hpos]
  rw [List.getElem_drop]
  simp

theorem setD_getD (rows : List (ZRow K)) (i d : Int) (k : Nat)
    (hk : k < rows.length) :
    (setD rows i d).getD k zrow0 =
      (if (rows.getD k zrow0).id = i then { rows.getD k zrow0 with d := d }
       else rows.getD k zrow0) := by
  rw [setD, List.getD_eq_getElem _ _ (by simpa using hk), List.getElem_map,
    List.getD_eq_getElem _ _ hk]

/-- C10: a dummy insertion for a failing atom `i` uses the id
`max(index) + 1`, which is strictly larger than every existing id (so it
never collides); the synthetic Cartesian atom `'X'` is appended at the
`a`-reference position offset by `normalize (n1 × BA)` — a vector
orthogonal to both `BA` and the plane normal `n1`, of unit length whenever
`n1 × BA` is nonzero; and in the Z-matrix the dummy row is spliced in
immediately before atom `i`'s row, with its `b`/`a`/`d` copied from the row
of atom `i`'s original `d`-reference atom and its values seeded by the
Cartesian collaborator, while atom `i`'s own `d` is rewritten to the dummy
id. -/
theorem C10_dummy_insertion (z : Zmat ℝ) (e : InvalidRef ℝ) :
    (insertDummyCart realOps z e).2 = z.maxId + 1 ∧
    (∀ r ∈ z.rows, r.id < (insertDummyCart realOps z e).2) ∧
    (insertDummyCart realOps z e).1.rows
      = e.alreadyBuiltCartesian.rows ++
        [⟨z.maxId + 1, .X,
          resolvePos e.alreadyBuiltCartesian (z.rowOf e.i).a +
            normalize realOps
              (cross (getNormalVec realOps z.lastValidCartesian
                  (z.rowOf e.i).b (z.rowOf e.i).a (z.rowOf e.i).d)
                (resolvePos e.alreadyBuiltCartesian (z.rowOf e.i).a -
                  resolvePos e.alreadyBuiltCartesian (z.rowOf e.i).b))⟩] ∧
    (∀ n1 BA : Vec3 ℝ,
      dot (normalize realOps (cross n1 BA)) BA = 0 ∧
      dot (normalize realOps (cross n1 BA)) n1 = 0 ∧
      (cross n1 BA ≠ 0 →
        dot (normalize realOps (cross n1 BA)) (normalize realOps (cross n1 BA)) = 1)) ∧
    (∀ (dummyCart : Cartesian ℝ) (dummyD : Int) (pos : Nat),
      findPos z.ids e.i = some pos → dummyD ≠ e.i →
      (insertDummyOp realOps z e.i dummyCart dummyD).1.rows.length
          = z.rows.length + 1 ∧
      (insertDummyOp realOps z e.i dummyCart dummyD).1.rows.getD pos zrow0
        = ⟨dummyD, .X,
            (z.rowOf (z.rowOf e.i).d).b, (z.rowOf (z.rowOf e.i).d).a,
            (z.rowOf (z.rowOf e.i).d).d,
            (calculateZmatValues realOps dummyCart
              (dummyD, (z.rowOf (z.rowOf e.i).d).b, (z.rowOf (z.rowOf e.i).d).a,
                (z.rowOf (z.rowOf e.i).d).d)).1,
            (calculateZmatValues realOps dummyCart
              (dummyD, (z.rowOf (z.rowOf e.i).d).b, (z.rowOf (z.rowOf e.i).d).a,
                (z.rowOf (z.rowOf e.i).d).d)).2.1,
            (calculateZmatValues realOps dummyCart
              (dummyD, (z.rowOf (z.rowOf e.i).d).b, (z.rowOf (z.rowOf e.i).d).a,
                (z.rowOf (z.rowOf e.i).d).d)).2.2⟩ ∧
      (insertDummyOp realOps z e.i dummyCart dummyD).1.rows.getD (pos + 1) zrow0
        = { z.rows.getD pos zrow0 with d := dummyD } ∧
      (insertDummyOp realOps z e.i dummyCart dummyD).1.hasDummies
        = (z.hasDummies.filter fun en => decide (en.i ≠ e.i)) ++
            [⟨e.i, dummyD, (z.rowOf e.i).d⟩]) := by
  refine ⟨rfl, ?_, rfl, ?_, ?_⟩
  · intro r hr
    have := maxId_ge_mem z hr
    have h2 : (insertDummyCart realOps z e).2 = z.maxId + 1 := rfl
    omega
  · intro n1 BA
    refine ⟨?_, ?_, ?_⟩
    · rw [normalize, dot_smul_left, dot_cross_right, mul_zero]
    · rw [normalize, dot_smul_left, dot_cross_left, mul_zero]
    · exact fun h => normalize_unit h
  · intro dummyCart dummyD pos hpos hne
    have hlt : pos < z.rows.length := by
      have := findPos_lt_length hpos
      simpa [Zmat.ids] using this
    have hposid : (z.rows.getD pos zrow0).id = e.i := by
      have h2 := findPos_getD hpos
      rw [Zmat.ids] at h2
      rw [List.getD_eq_getElem _ _ (by simpa using hlt), List.getElem_map] at h2
      rwa [List.getD_eq_getElem _ _ hlt]
    have hposval : (findPos z.ids e.i).getD 0 = pos := by rw [hpos]; rfl
    refine ⟨insertDummyOp_rows_length realOps z e.i _ _, ?_, ?_, rfl⟩
    · show (setD (insertRowAt z.rows ((findPos z.ids e.i).getD 0) _) e.i
          dummyD).getD pos zrow0 = _
      rw [hposval, setD_getD _ _ _ _
          (by rw [insertRowAt_length _ _ _ (le_of_lt hlt)]; omega),
        insertRowAt_getD_self _ _ _ (le_of_lt hlt)]
      rw [if_neg (by simpa using hne)]
    · show (setD (insertRowAt z.rows ((findPos z.ids e.i).getD 0) _) e.i
          dummyD).getD (pos + 1) zrow0 = _
      rw [hposval, setD_getD _ _ _ _
          (by rw [insertRowAt_length _ _ _ (le_of_lt hlt)]; omega),
        insertRowAt_getD_next _ _ _ hlt, if_pos hposid]

/-- A three-atom Cartesian frame used to exercise the dummy insertion. -/
def cW : Cartesian ℝ :=
  ⟨[⟨0, .elem 6, ⟨0, 1, 0⟩⟩, ⟨1, .elem 6, ⟨1, 0, 0⟩⟩, ⟨2, .elem 6, ⟨0, 0, 0⟩⟩]⟩

/-- A four-atom Z-matrix whose last row references `(b, a, d) = (2, 1, 0)`. -/
def zW : Zmat ℝ :=
  ⟨[⟨0, .elem 6, -1, -2, -4, 1, 90, 90⟩,
    ⟨1, .elem 6, 0, -1, -4, 1, 90, 90⟩,
    ⟨2, .elem 6, 1, 0, -1, 1, 90, 90⟩,
    ⟨3, .elem 6, 2, 1, 0, 1, 45, 45⟩], [], cW⟩

/-- An `InvalidReference` exception for atom `3` of `zW`, with the first
three atoms already built. -/
def eW : InvalidRef ℝ := ⟨3, 2, 1, 0, cW⟩

theorem C10_witness :
    (insertDummyCart realOps zW eW).2 = 4 ∧
    (insertDummyCart realOps zW eW).1.rows
      = cW.rows ++ [⟨4, .X, ⟨1, 1, 0⟩⟩] ∧
    dot (normalize realOps (cross (⟨0, 0, 1⟩ : Vec3 ℝ) ⟨1, 0, 0⟩)) ⟨1, 0, 0⟩ = 0 ∧
    dot (normalize realOps (cross (⟨0, 0, 1⟩ : Vec3 ℝ) ⟨1, 0, 0⟩)) ⟨0, 0, 1⟩ = 0 ∧
    dot (normalize realOps (cross (⟨0, 0, 1⟩ : Vec3 ℝ) ⟨1, 0, 0⟩))
        (normalize realOps (cross (⟨0, 0, 1⟩ : Vec3 ℝ) ⟨1, 0, 0⟩)) = 1 ∧
    (insertDummyOp realOps zW eW.i (insertDummyCart realOps zW eW).1 4).1.rows.length
      = 5 ∧
    (insertDummyOp realOps zW eW.i (insertDummyCart realOps zW eW).1 4).1.rows.getD 3 zrow0
      = ⟨4, .X, -1, -2, -4,
          (calculateZmatValues realOps (insertDummyCart realOps zW eW).1
            (4, -1, -2, -4)).1,
          (calculateZmatValues realOps (insertDummyCart realOps zW eW).1
            (4, -1, -2, -4)).2.1,
          (calculateZmatValues realOps (insertDummyCart realOps zW eW).1
            (4, -1, -2, -4)).2.2⟩ ∧
    (insertDummyOp realOps zW eW.i (insertDummyCart realOps zW eW).1 4).1.rows.getD
        (3 + 1) zrow0
      = ⟨3, .elem 6, 2, 1, 4, 1, 45, 45⟩ ∧
    (insertDummyOp realOps zW eW.i (insertDummyCart realOps zW eW).1 4).1.hasDummies
      = [⟨3, 4, 0⟩] := by
  obtain ⟨h1, _h2, h3, h4, h5⟩ := C10_dummy_insertion zW eW
  obtain ⟨g1, g2, g3, g4⟩ :=
    h5 (insertDummyCart realOps zW eW).1 4 3 rfl (by decide)
  obtain ⟨o1, o2, o3⟩ := h4 ⟨0, 0, 1⟩ ⟨1, 0, 0⟩
  refine ⟨?_, ?_, o1, o2, ?_, ?_, ?_, ?_, ?_⟩
  · rw [h1]
    norm_num [Zmat.maxId, zW, List.foldl]
  · rw [h3]
    norm_num [zW, eW, cW, Zmat.rowOf, Zmat.maxId, List.find?, List.foldl,
      resolvePos, keysBelowAreAbsRefs, Cartesian.posOf, getNormalVec,
      normalize, vnorm, realOps, Vec3.dot, Vec3.cross, Vec3.add_def,
      Vec3.sub_def, Vec3.smul_def, Real.sqrt_one]
  · refine o3 ?_
    intro h
    have hy := congrArg Vec3.y h
    norm_num [Vec3.cross] at hy
  · rw [g1]
    rfl
  · rw [g2]
    rfl
  · rw [g3]
    rfl
  · rw [g4]
    rfl

/-! ### Claim C1: the round trip through `get_cartesian` -/

theorem dot_comm (u v : Vec3 K) : dot u v = dot v u := by
  cases u
  cases v
  simp only [Vec3.dot]
  ring

theorem dot_smul_right (c : K) (u v : Vec3 K) : dot u (c • v) = c * dot u v := by
  cases u
  cases v
  simp only [Vec3.dot, Vec3.smul_def]
  ring

theorem cross_smul_left (c : K) (u v : Vec3 K) :
    cross (c • u) v = c • cross u v := by
  cases u
  cases v
  simp only [Vec3.cross, Vec3.smul_def, Vec3.mk.injEq]
  exact ⟨by ring, by ring, by ring⟩

theorem dot_self_nonneg (u : Vec3 K) : 0 ≤ dot u u := by
  rcases u with ⟨a, b, c⟩
  simp only [Vec3.dot]
  nlinarith [mul_self_nonneg a, mul_self_nonneg b, mul_self_nonneg c]

/-- The vector recovered from its normalization (nonzero case is the one
used; stated with an explicit norm factor). -/
theorem normalize_scale {w : Vec3 ℝ} (hw : w ≠ 0) :
    vnorm realOps w • normalize realOps w = w := by
  have hpos : 0 < vnorm realOps w := Real.sqrt_pos.mpr (dot_self_pos hw)
  rcases w with ⟨a, b, c⟩
  simp only [normalize, Vec3.smul_def, Vec3.mk.injEq]
  have hne : vnorm realOps ⟨a, b, c⟩ ≠ 0 := ne_of_gt hpos
  refine ⟨?_, ?_, ?_⟩ <;> field_simp

theorem vnorm_pos {w : Vec3 ℝ} (hw : w ≠ 0) : 0 < vnorm realOps w :=
  Real.sqrt_pos.mpr (dot_self_pos hw)

theorem sq_vnorm (w : Vec3 ℝ) : vnorm realOps w * vnorm realOps w = dot w w :=
  Real.mul_self_sqrt (dot_self_nonneg w)

/-- The triple product `a · ((a × c) × c)` collapses to the negated squared
norm of `a × c`. -/
theorem dot_cross_cross (a c : Vec3 K) :
    dot a (cross (cross a c) c) = -(dot (cross a c) (cross a c)) := by
  cases a
  cases c
  simp only [Vec3.dot, Vec3.cross]
  ring

/-- A vector within the shared tolerance of nothing is nonzero (the
tolerance being nonnegative). -/
theorem ne_zero_of_vecIsclose_false {u : Vec3 K}
    (heps : 0 ≤ n.eps) (h : vecIsclose n u 0 = false) : u ≠ 0 := by
  intro h0
  subst h0
  rw [vecIsclose_false_iff] at h
  exact h ⟨by simpa using heps, by simpa using heps, by simpa using heps⟩

/-- Composing the two Rodrigues rotations of the general placement branch:
rotating `b • u` by `θ` about `w` and then by `φ` about `u` lands at
`b (cos θ · u + sin θ cos φ · (w × u) + sin θ sin φ · w)`, provided `u` is a
unit vector orthogonal to `w`. -/
theorem rot_rot (u w : Vec3 K) (b θ φ : K)
    (hU : dot u u = 1) (hX : dot w u = 0) :
    rotApply n u φ (rotApply n w θ (b • u)) =
      b • (n.cos θ • u + (n.sin θ * n.cos φ) • cross w u +
        (n.sin θ * n.sin φ) • w) := by
  rcases u with ⟨u1, u2, u3⟩
  rcases w with ⟨w1, w2, w3⟩
  simp only [Vec3.dot] at hU hX
  simp only [rotApply, Vec3.dot, Vec3.cross, Vec3.smul_def, Vec3.add_def,
    Vec3.mk.injEq]
  refine ⟨?_, ?_, ?_⟩
  · linear_combination ((1 - n.cos φ) * b * n.cos θ * u1 +
        n.sin φ * b * n.sin θ * w1) * hU +
      (((1 - n.cos φ) * b * (1 - n.cos θ) * (w1 * u1 + w2 * u2 + w3 * u3) -
          n.sin φ * b * n.sin θ) * u1 +
        n.cos φ * b * (1 - n.cos θ) * w1 +
        n.sin φ * b * (1 - n.cos θ) * (u2 * w3 - u3 * w2)) * hX
  · linear_combination ((1 - n.cos φ) * b * n.cos θ * u2 +
        n.sin φ * b * n.sin θ * w2) * hU +
      (((1 - n.cos φ) * b * (1 - n.cos θ) * (w1 * u1 + w2 * u2 + w3 * u3) -
          n.sin φ * b * n.sin θ) * u2 +
        n.cos φ * b * (1 - n.cos θ) * w2 +
        n.sin φ * b * (1 - n.cos θ) * (u3 * w1 - u1 * w3)) * hX
  · linear_combination ((1 - n.cos φ) * b * n.cos θ * u3 +
        n.sin φ * b * n.sin θ * w3) * hU +
      (((1 - n.cos φ) * b * (1 - n.cos θ) * (w1 * u1 + w2 * u2 + w3 * u3) -
          n.sin φ * b * n.sin θ) * u3 +
        n.cos φ * b * (1 - n.cos θ) * w3 +
        n.sin φ * b * (1 - n.cos θ) * (u1 * w2 - u2 * w1)) * hX

/-- The four scalar facts of the round trip, over an abstract orthonormal
pair `u`, `w` and a third vector `AD` orthogonal to `w`: the placed
displacement `D` has squared length `b²`, its `u`-component is `b cos θ`,
and the two arguments handed to `atan2` by the re-derivation are
`-(b sin θ sin φ)·t` and `-(b sin θ cos φ)·t` for
`t = u · (w × AD)`. -/
theorem roundtrip_dots (u w AD D : Vec3 K) (b c s cp sp t : K)
    (hD : D = b • (c • u + (s * cp) • cross w u + (s * sp) • w))
    (hU : dot u u = 1) (hW : dot w w = 1) (hX : dot w u = 0)
    (hADw : dot AD w = 0) (ht : dot u (cross w AD) = t)
    (hth : s ^ 2 + c ^ 2 = 1) (hph : sp ^ 2 + cp ^ 2 = 1) :
    dot D D = b ^ 2 ∧
    dot D u = b * c ∧
    dot u (cross AD D) = -(b * s * sp) * t ∧
    dot AD D - dot AD u * dot D u = -(b * s * cp) * t := by
  subst hD
  rcases u with ⟨u1, u2, u3⟩
  rcases w with ⟨w1, w2, w3⟩
  rcases AD with ⟨a1, a2, a3⟩
  simp only [Vec3.dot, Vec3.cross, Vec3.smul_def, Vec3.add_def] at *
  refine ⟨?_, ?_, ?_, ?_⟩
  · linear_combination (b^2*c^2 + b^2*s^2*cp^2) * hU +
      (b^2*s^2*cp^2*(u1*u1 + u2*u2 + u3*u3) + b^2*s^2*sp^2) * hW +
      (-(b^2*s^2*cp^2)*(w1*u1 + w2*u2 + w3*u3) + 2*b^2*c*s*sp) * hX +
      b^2 * hth + b^2*s^2 * hph
  · linear_combination (b*c) * hU + (b*s*sp) * hX
  · linear_combination (b*s*cp*(a1*u1 + a2*u2 + a3*u3)) * hX -
      (b*s*cp*(u1*u1 + u2*u2 + u3*u3)) * hADw - (b*s*sp) * ht
  · linear_combination (-(b*s*cp)) * ht + (b*s*sp) * hADw -
      (b*c*(a1*u1 + a2*u2 + a3*u3)) * hU -
      (b*s*sp*(a1*u1 + a2*u2 + a3*u3)) * hX

/-- `atan2` recovers the angle from a positively scaled cosine/sine pair. -/
theorem realAtan2_recover {r φ : ℝ} (hr : 0 < r) (h1 : -Real.pi < φ)
    (h2 : φ ≤ Real.pi) :
    realAtan2 (r * Real.sin φ) (r * Real.cos φ) = φ := by
  have hz : (⟨r * Real.cos φ, r * Real.sin φ⟩ : ℂ)
      = (r : ℂ) * (Complex.cos φ + Complex.sin φ * Complex.I) := by
    simp [Complex.ext_iff, ← Complex.ofReal_cos, ← Complex.ofReal_sin,
      Complex.mul_re, Complex.mul_im]
  rw [realAtan2, hz, Complex.arg_mul_cos_add_sin_mul_I hr ⟨h1, h2⟩]

/-- Radians–degrees conversion round-trips over the reals. -/
theorem degrees_radians (x : ℝ) : degrees realOps (radians realOps x) = x := by
  have hpi : realOps.pi = Real.pi := rfl
  simp only [degrees, radians, hpi]
  field_simp

theorem add_sub_cancel_vec (a x : Vec3 K) : (a + x) - a = x := by
  cases a
  cases x
  simp only [Vec3.add_def, Vec3.sub_def, Vec3.mk.injEq]
  exact ⟨by ring, by ring, by ring⟩

/-- The exact round trip for one atom placed by the general two-rotation
branch: re-deriving bond, angle and dihedral from the placed position (the
formulas of `_calculate_zmat_values`) reproduces the inputs exactly,
provided the bond is positive, the angle lies strictly inside `(0, π)` and
the dihedral inside `(-π, π]`. -/
theorem single_general_roundtrip (vb va vd p : Vec3 ℝ) (b θ φ : ℝ)
    (hb : 0 < b) (hθ0 : 0 < θ) (hθπ : θ < Real.pi)
    (hφ1 : -Real.pi < φ) (hφ2 : φ ≤ Real.pi)
    (hBA : va - vb ≠ 0)
    (hN1 : cross (va - vb) (vd - va) ≠ 0)
    (hp : p = vb + rotApply realOps (normalize realOps (va - vb)) φ
        (rotApply realOps (normalize realOps (cross (va - vb) (vd - va))) θ
          (b • normalize realOps (va - vb)))) :
    Real.sqrt (dot (p - vb) (p - vb)) = b ∧
    Real.arccos (dot (p - vb) (va - vb) /
      (Real.sqrt (dot (p - vb) (p - vb)) *
        Real.sqrt (dot (va - vb) (va - vb)))) = θ ∧
    realAtan2 (dot (normalize realOps (va - vb)) (cross (vd - va) (p - vb)))
      (dot (vd - va) (p - vb) -
        dot (vd - va) (normalize realOps (va - vb)) *
          dot (p - vb) (normalize realOps (va - vb))) = φ := by
  have hsin_eq : realOps.sin = Real.sin := rfl
  have hcos_eq : realOps.cos = Real.cos := rfl
  set BA := va - vb with hBAdef
  set AD := vd - va with hADdef
  set N1 := cross BA AD with hN1def
  set u := normalize realOps BA with hu
  set w := normalize realOps N1 with hw
  set L := vnorm realOps BA with hL
  set M := vnorm realOps N1 with hM
  have hLpos : 0 < L := vnorm_pos hBA
  have hMpos : 0 < M := vnorm_pos hN1
  have hU : dot u u = 1 := normalize_unit hBA
  have hW : dot w w = 1 := normalize_unit hN1
  have hX : dot w u = 0 := by
    rw [hw, hu, normalize, normalize, dot_smul_left, dot_smul_right, hN1def,
      dot_cross_left, mul_zero, mul_zero]
  have hADw : dot AD w = 0 := by
    rw [hw, normalize, dot_smul_right, hN1def, dot_comm AD (cross BA AD),
      dot_cross_right, mul_zero]
  have hMM : dot N1 N1 = M * M := by
    rw [hM]
    exact (sq_vnorm N1).symm
  have ht : dot u (cross w AD) = -(M * L⁻¹) := by
    rw [hu, hw, normalize, normalize, cross_smul_left, dot_smul_left,
      dot_smul_right, hN1def, dot_cross_cross, ← hN1def, hMM, ← hL, ← hM]
    field_simp
    ring
  have hD : p - vb = b • (realOps.cos θ • u +
      (realOps.sin θ * realOps.cos φ) • cross w u +
      (realOps.sin θ * realOps.sin φ) • w) := by
    rw [hp, add_sub_cancel_vec]
    exact rot_rot realOps u w b θ φ hU hX
  obtain ⟨G1, G2, G3, G4⟩ := roundtrip_dots u w AD (p - vb) b
    (realOps.cos θ) (realOps.sin θ) (realOps.cos φ) (realOps.sin φ)
    (-(M * L⁻¹)) hD hU hW hX hADw ht
    (by rw [hsin_eq, hcos_eq]; exact Real.sin_sq_add_cos_sq θ)
    (by rw [hsin_eq, hcos_eq]; exact Real.sin_sq_add_cos_sq φ)
  have hbond : Real.sqrt (dot (p - vb) (p - vb)) = b := by
    rw [G1]
    exact Real.sqrt_sq hb.le
  refine ⟨hbond, ?_, ?_⟩
  · have hBAu : BA = L • u := by
      rw [hL, hu]
      exact (normalize_scale hBA).symm
    have hLsqrt : Real.sqrt (dot BA BA) = L := rfl
    have harg : dot (p - vb) BA /
        (Real.sqrt (dot (p - vb) (p - vb)) * Real.sqrt (dot BA BA))
        = Real.cos θ := by
      rw [hbond, hLsqrt, hBAu, dot_smul_right, G2, hcos_eq]
      field_simp
      ring
    rw [harg]
    exact Real.arccos_cos hθ0.le hθπ.le
  · have hsinpos : 0 < Real.sin θ := Real.sin_pos_of_pos_of_lt_pi hθ0 hθπ
    have hrpos : 0 < b * Real.sin θ * (M * L⁻¹) :=
      mul_pos (mul_pos hb hsinpos) (mul_pos hMpos (inv_pos.mpr hLpos))
    have hy : dot u (cross AD (p - vb))
        = (b * Real.sin θ * (M * L⁻¹)) * Real.sin φ := by
      rw [G3, hsin_eq]
      ring
    have hx : dot AD (p - vb) - dot AD u * dot (p - vb) u
        = (b * Real.sin θ * (M * L⁻¹)) * Real.cos φ := by
      rw [G4, hsin_eq, hcos_eq]
      ring
    rw [hy, hx]
    exact realAtan2_recover hrpos hφ1 hφ2

/-- A construction-table reference of row `k` is valid when it is either a
sentinel key or the id of an earlier row. -/
def ValidRef (z : Zmat K) (k : Nat) (v : Int) : Prop :=
  v < 0 ∨ ∃ j, j < k ∧ findPos z.ids v = some j

theorem findPos_eq_none {ids : List Int} {v : Int} (h : v ∉ ids) :
    findPos ids v = none := by
  induction ids with
  | nil => rfl
  | cons i rest ih =>
    rw [findPos, if_neg (fun he => h (by rw [← he]; exact List.mem_cons_self i rest)),
      ih (fun hm => h (List.mem_cons_of_mem i hm))]
    rfl

theorem findPos_of_nodup {ids : List Int} {v : Int} {k : Nat}
    (hnd : ids.Nodup) (hk : k < ids.length) (hv : ids.getD k 0 = v) :
    findPos ids v = some k := by
  induction ids generalizing k with
  | nil => simp at hk
  | cons i rest ih =>
    rcases k with _ | k'
    · rw [List.getD_cons_zero] at hv
      rw [findPos, if_pos hv]
    · rw [List.getD_cons_succ] at hv
      have hk' : k' < rest.length := by
        simp only [List.length_cons] at hk
        omega
      obtain ⟨hnotmem, hndrest⟩ := List.nodup_cons.mp hnd
      have hvmem : v ∈ rest := by
        rw [← hv, List.getD_eq_getElem _ _ hk']
        exact List.getElem_mem _
      rw [findPos, if_neg (fun he => hnotmem (by rw [he]; exact hvmem)),
        ih hndrest hk' hv]
      rfl

theorem ids_getD (z : Zmat K) {k : Nat} (hk : k < z.rows.length) :
    z.ids.getD k 0 = (z.rows.getD k zrow0).id := by
  rw [Zmat.ids, List.getD_eq_getElem _ _ (by simpa using hk), List.getElem_map,
    List.getD_eq_getElem _ _ hk]

theorem posOf_cons_pos (row : CartRow K) (rest : List (CartRow K)) (v : Int)
    (h : row.id = v) : Cartesian.posOf ⟨row :: rest⟩ v = row.pos := by
  rw [Cartesian.posOf, List.find?_cons_of_pos _ (by simp [h])]

theorem posOf_cons_neg (row : CartRow K) (rest : List (CartRow K)) (v : Int)
    (h : ¬ row.id = v) :
    Cartesian.posOf ⟨row :: rest⟩ v = Cartesian.posOf ⟨rest⟩ v := by
  rw [Cartesian.posOf, List.find?_cons_of_neg _ (by simp [h]), Cartesian.posOf]

theorem posOf_zip (rows : List (ZRow K)) (ps : List (Vec3 K)) (v : Int)
    (j : Nat) (hfp : findPos (rows.map (·.id)) v = some j)
    (hlen : rows.length ≤ ps.length) :
    Cartesian.posOf ⟨(rows.zip ps).map fun rp => ⟨rp.1.id, rp.1.atom, rp.2⟩⟩ v
      = ps.getD j 0 := by
  induction rows generalizing ps j with
  | nil => simp [findPos] at hfp
  | cons r rest ih =>
    rcases ps with _ | ⟨q, qs⟩
    · simp at hlen
    · simp only [List.map_cons, findPos] at hfp
      rw [show ((r :: rest).zip (q :: qs)) = (r, q) :: rest.zip qs from rfl,
        List.map_cons]
      by_cases hid : r.id = v
      · rw [if_pos hid] at hfp
        have hj : 0 = j := by simpa using hfp
        rw [← hj, posOf_cons_pos _ _ _ hid]
        rfl
      · rw [if_neg hid] at hfp
        rcases hfp2 : findPos (rest.map (·.id)) v with _ | j'
        · rw [hfp2] at hfp
          simp at hfp
        · rw [hfp2] at hfp
          have hj : j' + 1 = j := by simpa using hfp
          rw [← hj, posOf_cons_neg _ _ _ hid, List.getD_cons_succ]
          exact ih qs j' hfp2 (by simpa using hlen)

theorem createCartesian_full (z : Zmat K) (positions : List (Vec3 K))
    (hlen : positions.length = z.rows.length) :
    createCartesian z positions z.rows.length
      = ⟨(z.rows.zip positions).map fun rp => ⟨rp.1.id, rp.1.atom, rp.2⟩⟩ := by
  rw [createCartesian, List.take_length, ← hlen, List.take_length]

theorem posOf_cart (z : Zmat K) (positions : List (Vec3 K))
    (hlen : positions.length = z.rows.length) {v : Int} {j : Nat}
    (hfp : findPos z.ids v = some j) :
    (createCartesian z positions z.rows.length).posOf v
      = positions.getD j 0 := by
  rw [createCartesian_full z positions hlen]
  rw [Zmat.ids] at hfp
  exact posOf_zip z.rows positions v j hfp (le_of_eq hlen.symm)

theorem ctableAfter_getD (z : Zmat K) {k : Nat} (hk : k < z.rows.length) :
    (ctableAfter z).getD k (0, 0, 0) =
      ( if k = 0 then (z.rows.getD k zrow0).b
          else replaceRef z.ids (z.rows.getD k zrow0).b,
        if k ≤ 1 then (z.rows.getD k zrow0).a
          else replaceRef z.ids (z.rows.getD k zrow0).a,
        if k ≤ 2 then (z.rows.getD k zrow0).d
          else replaceRef z.ids (z.rows.getD k zrow0).d ) := by
  rw [ctableAfter, List.getD_eq_getElem _ _ (by simpa using hk),
    List.getElem_map, List.getElem_enum, List.getD_eq_getElem _ _ hk]

theorem valuesOf_getD (z : Zmat K) {k : Nat} (hk : k < z.rows.length) :
    (valuesOf n z).getD k (0, 0, 0) =
      ((z.rows.getD k zrow0).bond, radians n (z.rows.getD k zrow0).angle,
        radians n (z.rows.getD k zrow0).dihedral) := by
  rw [valuesOf, List.getD_eq_getElem _ _ (by simpa using hk),
    List.getElem_map, List.getD_eq_getElem _ _ hk]

theorem refPos_resolvePos_sentinel (built : List (Vec3 K)) (c : Cartesian K)
    {v : Int} (hv : v < 0) : refPos built v = resolvePos c v := by
  rw [refPos, resolvePos, if_pos (by simpa [keysBelowAreAbsRefs] using hv),
    if_pos (by simpa [keysBelowAreAbsRefs] using hv)]

/-- The position the builder resolves for a renumbered reference equals the
position the finished Cartesian resolves for the original reference. -/
theorem ref_consistent (z : Zmat K) (positions : List (Vec3 K))
    (hNonneg : ∀ i ∈ z.ids, 0 ≤ i)
    (hlen : positions.length = z.rows.length)
    {k : Nat} (hk : k ≤ z.rows.length) {v : Int} (hv : ValidRef z k v) :
    refPos (positions.take k) (replaceRef z.ids v)
      = resolvePos (createCartesian z positions z.rows.length) v := by
  rcases hv with hneg | ⟨j, hjk, hfp⟩
  · have hnone : findPos z.ids v = none :=
      findPos_eq_none (fun hmem => absurd (hNonneg v hmem) (by omega))
    simp only [replaceRef, hnone]
    exact refPos_resolvePos_sentinel _ _ hneg
  · have hjlen : j < z.ids.length := findPos_lt_length hfp
    have hvnn : 0 ≤ v := by
      refine hNonneg v ?_
      rw [← findPos_getD hfp, List.getD_eq_getElem _ _ hjlen]
      exact List.getElem_mem _
    simp only [replaceRef, hfp]
    rw [refPos, if_neg (by rw [show keysBelowAreAbsRefs = 0 from rfl]; omega),
      resolvePos, if_neg (by rw [show keysBelowAreAbsRefs = 0 from rfl]; omega),
      posOf_cart z positions hlen hfp]
    have hjk' : j < positions.length := by
      rw [hlen]
      omega
    rw [show ((j : Int)).toNat = j from by simp,
      List.getD_eq_getElem _ _ (by simp [List.length_take]; omega),
      List.getElem_take, List.getD_eq_getElem _ _ hjk']

/-- C1 (amended): for a well-formed Z-matrix — nonnegative, duplicate-free
ids; every construction-table reference a sentinel or an earlier atom, with
the renumbering-exempt upper-triangle cells sentinels — whose rows all
carry a positive bond, an angle strictly between 0° and 180° that is not
within the shared tolerance of either end (so every atom is placed by the
general two-rotation branch), and a dihedral in `(-180°, 180°]`, a
successful `get_cartesian` run reproduces every row's bond, angle and
dihedral *exactly* when the internal coordinates are re-derived from the
resulting Cartesian against that row's construction-table references (in
particular within the shared tolerance).  The restriction to the general
branch is forced: an atom placed by the parallel or anti-parallel branch
does not determine its dihedral, which re-derives as `atan2(0,0) = 0`
regardless of the stored value. -/
theorem C1_round_trip (z : Zmat ℝ) (cart : Cartesian ℝ)
    (hok : getCartesian realOps z = .ok cart)
    (hNodup : z.ids.Nodup)
    (hNonneg : ∀ i ∈ z.ids, 0 ≤ i)
    (hRefs : ∀ k, k < z.rows.length →
      ValidRef z k (z.rows.getD k zrow0).b ∧
      ValidRef z k (z.rows.getD k zrow0).a ∧
      ValidRef z k (z.rows.getD k zrow0).d)
    (hSent1 : 1 < z.rows.length →
      (z.rows.getD 1 zrow0).a < 0 ∧ (z.rows.getD 1 zrow0).d < 0)
    (hSent2 : 2 < z.rows.length → (z.rows.getD 2 zrow0).d < 0)
    (hVals : ∀ r ∈ z.rows, 0 < r.bond ∧ 0 < r.angle ∧ r.angle < 180 ∧
      -180 < r.dihedral ∧ r.dihedral ≤ 180 ∧
      isclose realOps (radians realOps r.angle) realOps.pi = false ∧
      isclose realOps (radians realOps r.angle) 0 = false) :
    ∀ k, k < z.rows.length →
      calculateZmatValues realOps cart
        ((z.rows.getD k zrow0).id, (z.rows.getD k zrow0).b,
          (z.rows.getD k zrow0).a, (z.rows.getD k zrow0).d)
        = ((z.rows.getD k zrow0).bond, (z.rows.getD k zrow0).angle,
            (z.rows.getD k zrow0).dihedral) := by
  intro k hk
  unfold getCartesian at hok
  rcases hrun : jitCalcPositions realOps (ctableAfter z) (valuesOf realOps z)
      with ⟨err, positions⟩
  rw [hrun] at hok
  rcases err with _ | r0
  · injection hok with hc
    subst hc
    rw [jitCalcPositions] at hrun
    have hspec := go_ok_spec realOps ((ctableAfter z).zip (valuesOf realOps z))
      [] positions hrun
    have hplen : positions.length = z.rows.length := by
      have h1 := hspec.1
      rw [List.length_zip] at h1
      simpa using h1
    have hzk : k < ((ctableAfter z).zip (valuesOf realOps z)).length := by
      rw [List.length_zip]
      simp only [length_ctableAfter, length_valuesOf, Nat.min_self]
      exact hk
    have hrow := hspec.2.2 k (by simpa [List.length_zip] using hzk)
    rw [show (trow0 : (Int × Int × Int) × (ℝ × ℝ × ℝ))
          = ((0, 0, 0), (0, 0, 0)) from rfl,
      zip_getD _ _ (0, 0, 0) (0, 0, 0) k (by simpa using hk) (by simpa using hk),
      ctableAfter_getD z hk, valuesOf_getD realOps z hk] at hrow
    simp only [rowKernel, List.length_nil, Nat.zero_add] at hrow
    have hmemr : z.rows.getD k zrow0 ∈ z.rows := by
      rw [List.getD_eq_getElem _ _ hk]
      exact List.getElem_mem _
    obtain ⟨hbond_pos, hang0, hang180, hdih1, hdih2, hpi_f, h0_f⟩ :=
      hVals _ hmemr
    obtain ⟨hvb, hva, hvd⟩ := hRefs k hk
    have hb' : refPos (positions.take k)
        (if k = 0 then (z.rows.getD k zrow0).b
          else replaceRef z.ids (z.rows.getD k zrow0).b)
        = resolvePos (createCartesian z positions z.rows.length)
            (z.rows.getD k zrow0).b := by
      by_cases hk0 : k = 0
      · rw [if_pos hk0]
        rcases hvb with hneg | ⟨j, hj, _⟩
        · exact refPos_resolvePos_sentinel _ _ hneg
        · omega
      · rw [if_neg hk0]
        exact ref_consistent z positions hNonneg hplen (le_of_lt hk) hvb
    have ha' : refPos (positions.take k)
        (if k ≤ 1 then (z.rows.getD k zrow0).a
          else replaceRef z.ids (z.rows.getD k zrow0).a)
        = resolvePos (createCartesian z positions z.rows.length)
            (z.rows.getD k zrow0).a := by
      by_cases hk1 : k ≤ 1
      · rw [if_pos hk1]
        refine refPos_resolvePos_sentinel _ _ ?_
        interval_cases k
        · rcases hva with hneg | ⟨j, hj, _⟩
          · exact hneg
          · omega
        · exact (hSent1 hk).1
      · rw [if_neg hk1]
        exact ref_consistent z positions hNonneg hplen (le_of_lt hk) hva
    have hd' : refPos (positions.take k)
        (if k ≤ 2 then (z.rows.getD k zrow0).d
          else replaceRef z.ids (z.rows.getD k zrow0).d)
        = resolvePos (createCartesian z positions z.rows.length)
            (z.rows.getD k zrow0).d := by
      by_cases hk2 : k ≤ 2
      · rw [if_pos hk2]
        refine refPos_resolvePos_sentinel _ _ ?_
        interval_cases k
        · rcases hvd with hneg | ⟨j, hj, _⟩
          · exact hneg
          · omega
        · exact (hSent1 hk).2
        · exact hSent2 hk
      · rw [if_neg hk2]
        exact ref_consistent z positions hNonneg hplen (le_of_lt hk) hvd
    rw [hb', ha', hd'] at hrow
    have hid : resolvePos (createCartesian z positions z.rows.length)
        (z.rows.getD k zrow0).id = positions.getD k 0 := by
      have hfpk : findPos z.ids (z.rows.getD k zrow0).id = some k :=
        findPos_of_nodup hNodup (by simpa [Zmat.ids] using hk) (ids_getD z hk)
      have hidnn : 0 ≤ (z.rows.getD k zrow0).id := by
        refine hNonneg _ ?_
        rw [← ids_getD z hk,
          List.getD_eq_getElem _ _ (by simpa [Zmat.ids] using hk)]
        exact List.getElem_mem _
      rw [resolvePos, if_neg (by rw [show keysBelowAreAbsRefs = 0 from rfl]; omega),
        posOf_cart z positions hplen hfpk]
    cases hc1 : vecIsclose realOps
        (resolvePos (createCartesian z positions z.rows.length)
            (z.rows.getD k zrow0).a -
          resolvePos (createCartesian z positions z.rows.length)
            (z.rows.getD k zrow0).b) (0 : Vec3 ℝ) with
    | true =>
      rw [singlePos_BA_zero realOps _ _ _ _ hc1] at hrow
      exact absurd hrow (by simp)
    | false =>
      cases hc4 : vecIsclose realOps
          (cross (resolvePos (createCartesian z positions z.rows.length)
                (z.rows.getD k zrow0).a -
              resolvePos (createCartesian z positions z.rows.length)
                (z.rows.getD k zrow0).b)
            (resolvePos (createCartesian z positions z.rows.length)
                (z.rows.getD k zrow0).d -
              resolvePos (createCartesian z positions z.rows.length)
                (z.rows.getD k zrow0).a)) (0 : Vec3 ℝ) with
      | true =>
        rw [singlePos_N1_zero realOps _ _ _ hc1 hpi_f h0_f hc4] at hrow
        exact absurd hrow (by simp)
      | false =>
        rw [singlePos_general realOps hc1 hpi_f h0_f hc4] at hrow
        have hp : positions.getD k 0 = _ := (Option.some.inj hrow).symm
        have hpi_pos := Real.pi_pos
        obtain ⟨R1, R2, R3⟩ := single_general_roundtrip
          (resolvePos (createCartesian z positions z.rows.length)
            (z.rows.getD k zrow0).b)
          (resolvePos (createCartesian z positions z.rows.length)
            (z.rows.getD k zrow0).a)
          (resolvePos (createCartesian z positions z.rows.length)
            (z.rows.getD k zrow0).d)
          (positions.getD k 0)
          (z.rows.getD k zrow0).bond
          (radians realOps (z.rows.getD k zrow0).angle)
          (radians realOps (z.rows.getD k zrow0).dihedral)
          hbond_pos
          (by show 0 < (z.rows.getD k zrow0).angle * realOps.pi / 180
              have hpe : realOps.pi = Real.pi := rfl
              rw [hpe]
              positivity)
          (by show (z.rows.getD k zrow0).angle * realOps.pi / 180 < Real.pi
              have hpe : realOps.pi = Real.pi := rfl
              rw [hpe, div_lt_iff₀ (by norm_num : (0:ℝ) < 180)]
              nlinarith)
          (by show -Real.pi < (z.rows.getD k zrow0).dihedral * realOps.pi / 180
              have hpe : realOps.pi = Real.pi := rfl
              rw [hpe, lt_div_iff₀ (by norm_num : (0:ℝ) < 180)]
              nlinarith)
          (by show (z.rows.getD k zrow0).dihedral * realOps.pi / 180 ≤ Real.pi
              have hpe : realOps.pi = Real.pi := rfl
              rw [hpe, div_le_iff₀ (by norm_num : (0:ℝ) < 180)]
              nlinarith)
          (ne_zero_of_vecIsclose_false realOps
            (by norm_num [realOps, realEps]) hc1)
          (ne_zero_of_vecIsclose_false realOps
            (by norm_num [realOps, realEps]) hc4)
          hp
        simp only [calculateZmatValues]
        rw [hid,
          show realOps.sqrt = Real.sqrt from rfl,
          show realOps.acos = Real.arccos from rfl,
          show realOps.atan2 = realAtan2 from rfl,
          R2, R3, R1, degrees_radians, degrees_radians]
  · simp at hok

theorem rad90_eq : radians realOps (90 : ℝ) = Real.pi / 2 := by
  simp only [radians, show realOps.pi = Real.pi from rfl]
  ring

theorem rad180_eq : radians realOps (180 : ℝ) = Real.pi := by
  simp only [radians, show realOps.pi = Real.pi from rfl]
  field_simp

theorem isclose_rad90_pi_false :
    isclose realOps (radians realOps (90 : ℝ)) realOps.pi = false := by
  rw [rad90_eq, isclose_false_iff, show realOps.pi = Real.pi from rfl,
    show realOps.eps = (1 / 100000000 : ℝ) from rfl]
  have h3 := Real.pi_gt_three
  rw [abs_of_neg (by linarith : Real.pi / 2 - Real.pi < 0)]
  intro habs
  linarith

theorem isclose_rad90_zero_false :
    isclose realOps (radians realOps (90 : ℝ)) 0 = false := by
  rw [rad90_eq, isclose_false_iff,
    show realOps.eps = (1 / 100000000 : ℝ) from rfl]
  have h3 := Real.pi_gt_three
  rw [abs_of_pos (by linarith : (0:ℝ) < Real.pi / 2 - 0)]
  intro habs
  linarith

theorem vecIsclose_ex_false :
    vecIsclose realOps ((⟨1, 0, 0⟩ : Vec3 ℝ) - ⟨0, 0, 0⟩) 0 = false := by
  rw [vecIsclose_false_iff]
  intro ⟨h1, _, _⟩
  rw [show ((⟨1, 0, 0⟩ : Vec3 ℝ) - ⟨0, 0, 0⟩).x = 1 from by
        simp [Vec3.sub_def]] at h1
  rw [show ((0 : Vec3 ℝ)).x = 0 from rfl,
    show realOps.eps = (1 / 100000000 : ℝ) from rfl] at h1
  norm_num at h1

/-- A one-atom Z-matrix placed by the general branch: sentinel references,
bond 1, angle 90°, dihedral 90°. -/
def zOne : Zmat ℝ := ⟨[⟨0, .elem 6, -1, -2, -3, 1, 90, 90⟩], [], ⟨[]⟩⟩

/-- Its conversion result: the atom at `(0, 0, 1)`. -/
def cartOne : Cartesian ℝ := ⟨[⟨0, .elem 6, ⟨0, 0, 1⟩⟩]⟩

theorem zOne_kernel :
    rowKernel realOps (-1, -2, -3)
        ((1 : ℝ), radians realOps 90, radians realOps 90) []
      = some ⟨0, 0, 1⟩ := by
  show jitCalcSinglePosition realOps ⟨0, 0, 0⟩ ⟨1, 0, 0⟩ ⟨0, 1, 0⟩ 1
      (radians realOps 90) (radians realOps 90) = some ⟨0, 0, 1⟩
  have hN1 : vecIsclose realOps
      (cross ((⟨1, 0, 0⟩ : Vec3 ℝ) - ⟨0, 0, 0⟩)
        ((⟨0, 1, 0⟩ : Vec3 ℝ) - ⟨1, 0, 0⟩)) 0 = false := by
    rw [vecIsclose_false_iff]
    intro ⟨_, _, h3⟩
    rw [show (cross ((⟨1, 0, 0⟩ : Vec3 ℝ) - ⟨0, 0, 0⟩)
          ((⟨0, 1, 0⟩ : Vec3 ℝ) - ⟨1, 0, 0⟩)).z = 1 from by
        simp [Vec3.sub_def, Vec3.cross]] at h3
    rw [show ((0 : Vec3 ℝ)).z = 0 from rfl,
      show realOps.eps = (1 / 100000000 : ℝ) from rfl] at h3
    norm_num at h3
  rw [singlePos_general realOps vecIsclose_ex_false isclose_rad90_pi_false
    isclose_rad90_zero_false hN1]
  rw [rad90_eq]
  norm_num [rotApply, normalize, vnorm, Vec3.dot, Vec3.cross, Vec3.sub_def,
    Vec3.add_def, Vec3.smul_def, realOps, Real.sqrt_one, Real.cos_pi_div_two,
    Real.sin_pi_div_two, Vec3.mk.injEq]

theorem getCartesian_zOne : getCartesian realOps zOne = .ok cartOne := by
  have hct : ctableAfter zOne = [(-1, -2, -3)] := rfl
  have hv : valuesOf realOps zOne
      = [((1 : ℝ), radians realOps 90, radians realOps 90)] := rfl
  unfold getCartesian
  rw [jitCalcPositions, hct, hv,
    show ([(-1, -2, -3)] : List (Int × Int × Int)).zip
        [((1 : ℝ), radians realOps 90, radians realOps 90)]
      = [((-1, -2, -3), ((1 : ℝ), radians realOps 90, radians realOps 90))]
      from rfl,
    go_cons_ok realOps [] zOne_kernel, go_nil]
  rfl

/-- C1 witness: the one-atom general-branch molecule satisfies every
hypothesis, and re-derivation reproduces `(1, 90, 90)` exactly. -/
theorem C1_witness :
    getCartesian realOps zOne = .ok cartOne ∧
    calculateZmatValues realOps cartOne (0, -1, -2, -3) = (1, 90, 90) := by
  refine ⟨getCartesian_zOne, ?_⟩
  have hmain := C1_round_trip zOne cartOne getCartesian_zOne
    (by simp [zOne, Zmat.ids])
    (by intro i hi; simp [zOne, Zmat.ids] at hi; omega)
    (by intro k hk
        have hk0 : k = 0 := by simpa [zOne] using hk
        subst hk0
        exact ⟨Or.inl (show (-1 : Int) < 0 by norm_num),
          Or.inl (show (-2 : Int) < 0 by norm_num),
          Or.inl (show (-3 : Int) < 0 by norm_num)⟩)
    (by intro h; exact absurd h (by simp [zOne]))
    (by intro h; exact absurd h (by simp [zOne]))
    (by intro r hr
        have hr' : r = ⟨0, .elem 6, -1, -2, -3, 1, 90, 90⟩ := by
          simpa [zOne] using hr
        subst hr'
        exact ⟨by norm_num, by norm_num, by norm_num, by norm_num, by norm_num,
          isclose_rad90_pi_false, isclose_rad90_zero_false⟩)
    0 (by simp [zOne])
  exact hmain

/-- A one-atom Z-matrix whose angle is exactly 180°, placed by the
anti-parallel branch: bond 2, dihedral 90°. -/
def zPi : Zmat ℝ := ⟨[⟨0, .elem 6, -1, -2, -3, 2, 180, 90⟩], [], ⟨[]⟩⟩

/-- Its conversion result: the atom at `(-2, 0, 0)`. -/
def cartPi : Cartesian ℝ := ⟨[⟨0, .elem 6, ⟨-2, 0, 0⟩⟩]⟩

theorem realAtan2_zero : realAtan2 0 0 = 0 := by
  rw [realAtan2, show (⟨0, 0⟩ : ℂ) = 0 from by simp [Complex.ext_iff]]
  exact Complex.arg_zero

theorem zPi_kernel :
    rowKernel realOps (-1, -2, -3)
        ((2 : ℝ), radians realOps 180, radians realOps 90) []
      = some ⟨-2, 0, 0⟩ := by
  show jitCalcSinglePosition realOps ⟨0, 0, 0⟩ ⟨1, 0, 0⟩ ⟨0, 1, 0⟩ 2
      (radians realOps 180) (radians realOps 90) = some ⟨-2, 0, 0⟩
  have hpi_t : isclose realOps (radians realOps (180 : ℝ)) realOps.pi = true := by
    rw [rad180_eq, isclose_true_iff, show realOps.pi = Real.pi from rfl,
      sub_self, abs_zero, show realOps.eps = (1 / 100000000 : ℝ) from rfl]
    norm_num
  rw [singlePos_pi realOps ⟨0, 1, 0⟩ (radians realOps 90) vecIsclose_ex_false
    hpi_t]
  norm_num [normalize, vnorm, Vec3.dot, Vec3.sub_def, Vec3.add_def,
    Vec3.smul_def, Vec3.neg_def, realOps, Real.sqrt_one, Vec3.mk.injEq]

theorem getCartesian_zPi : getCartesian realOps zPi = .ok cartPi := by
  have hct : ctableAfter zPi = [(-1, -2, -3)] := rfl
  have hv : valuesOf realOps zPi
      = [((2 : ℝ), radians realOps 180, radians realOps 90)] := rfl
  unfold getCartesian
  rw [jitCalcPositions, hct, hv,
    show ([(-1, -2, -3)] : List (Int × Int × Int)).zip
        [((2 : ℝ), radians realOps 180, radians realOps 90)]
      = [((-1, -2, -3), ((2 : ℝ), radians realOps 180, radians realOps 90))]
      from rfl,
    go_cons_ok realOps [] zPi_kernel, go_nil]
  rfl

/-- C1 counterexample: the anti-parallel one-atom molecule converts
successfully storing dihedral 90°, but the re-derived dihedral is
`atan2(0,0) = 0`, not within the shared tolerance of 90°. -/
theorem C1_counterexample :
    getCartesian realOps zPi = .ok cartPi ∧
    (zPi.rows.getD 0 zrow0).dihedral = 90 ∧
    (calculateZmatValues realOps cartPi (0, -1, -2, -3)).2.2 = 0 ∧
    isclose realOps
      (calculateZmatValues realOps cartPi (0, -1, -2, -3)).2.2
      (zPi.rows.getD 0 zrow0).dihedral = false := by
  have hdih : (calculateZmatValues realOps cartPi (0, -1, -2, -3)).2.2 = 0 := by
    have hp0 : resolvePos cartPi (0 : Int) = ⟨-2, 0, 0⟩ := rfl
    have hm1 : resolvePos cartPi (-1 : Int) = ⟨0, 0, 0⟩ := rfl
    have hm2 : resolvePos cartPi (-2 : Int) = ⟨1, 0, 0⟩ := rfl
    have hm3 : resolvePos cartPi (-3 : Int) = ⟨0, 1, 0⟩ := rfl
    simp only [calculateZmatValues, hp0, hm1, hm2, hm3]
    norm_num [normalize, vnorm, Vec3.dot, Vec3.cross, Vec3.sub_def,
      Vec3.smul_def, realOps, Real.sqrt_one, realAtan2_zero, degrees]
  refine ⟨getCartesian_zPi, rfl, hdih, ?_⟩
  rw [hdih, isclose_false_iff,
    show (zPi.rows.getD 0 zrow0).dihedral = (90 : ℝ) from rfl,
    show realOps.eps = (1 / 100000000 : ℝ) from rfl]
  rw [abs_of_neg (by norm_num : (0 : ℝ) - 90 < 0)]
  norm_num

end ChemCoord
